import Mathlib

/-!
Verification development for the Stundenplan timetable solver.

This file shallowly embeds the solver core of the repository
(src/python/genetic_algorithm.py together with the data model in
src/python/api/models and the CLI surface in src/python/main.py) as Lean
definitions and proves properties of them.  Python lists become Lean lists,
Python dicts become association lists, Python sets become finite sets,
machine integers become Int, and fallible operations (list indexing,
dictionary key lookup) return Option.
-/

namespace Stundenplan

/-- Weight added for each violated hard constraint occurrence
(genetic_algorithm.py, HARD_CONSTRAINT). -/
def HARD_CONSTRAINT : Int := 100

/-- Mid-level constraint weight declared in genetic_algorithm.py
(MID_CONSTRAINT); unused by the fitness function. -/
def MID_CONSTRAINT : Int := 3

/-- Default number of generations (genetic_algorithm.py, NUM_GENERATIONS). -/
def NUM_GENERATIONS : Nat := 20000

/-- Population size per generation (genetic_algorithm.py, SOL_PER_POP). -/
def SOL_PER_POP : Nat := 300

/-- Day of the week (api/models/day.py): abbreviation and display name. -/
structure Day where
  abbreviation : String
  name : String
deriving DecidableEq, Inhabited

/-- Time slot (api/models/time_slot.py).  Only the hour and minute of the
Python time objects are used, so a time is modelled as an (hour, minute)
pair of naturals. -/
structure TimeSlot where
  startTime : Nat × Nat
  endTime : Nat × Nat
deriving DecidableEq, Inhabited

/-- Combination of a day and a time slot (api/models/date.py). -/
structure Date where
  day : Day
  timeSlot : TimeSlot
deriving DecidableEq, Inhabited

/-- Participant size with a comparison ordinal (api/models/participant_size.py).
The Python class compares (eq, ne, lt, le, gt, ge) solely by ordinal. -/
structure ParticipantSize where
  name : String
  ordinal : Nat
deriving DecidableEq, Inhabited

/-- Room type (api/models/room_type.py); dataclass equality is by name. -/
structure RoomType where
  name : String
deriving DecidableEq, Inhabited

/-- Room (api/models/room.py). -/
structure Room where
  abbreviation : String
  name : String
  participantSize : ParticipantSize
  roomType : RoomType
deriving DecidableEq, Inhabited

/-- Term (api/models/term.py): name is either Sommer or Winter. -/
structure Term where
  name : String
deriving DecidableEq

/-- Priority (api/models/priority.py); the class invariant enforced by
Priority.post_init restricts value to 1..100 and appears below as the
predicate ValidPriority. -/
structure Priority where
  value : Int
deriving DecidableEq

/-- Class invariant of Priority.post_init: value lies in 1..100. -/
def ValidPriority (p : Priority) : Prop :=
  1 ≤ p.value ∧ p.value ≤ 100

instance (p : Priority) : Decidable (ValidPriority p) :=
  inferInstanceAs (Decidable (1 ≤ p.value ∧ p.value ≤ 100))

/-- Course (api/models/course.py). -/
structure Course where
  abbreviation : String
  name : String
deriving DecidableEq

/-- Semester (api/models/semester.py); value lies in 1..7. -/
structure Semester where
  value : Int
deriving DecidableEq

/-- Event (api/models/event.py).  The participants dictionary mapping
course ids to semester-id lists is modelled as an association list. -/
structure Event where
  name : String
  employeeIds : List Nat
  participants : List (Nat × List Nat)
  weeklyBlocks : Nat
  term : Term
  participantSize : ParticipantSize
  roomType : RoomType
  disallowedDays : List Day
deriving DecidableEq

/-- A slot as built by prepare: a pair of pairs
((date id, date), (room id, room)). -/
abbrev Slot := (Nat × Date) × (Nat × Room)

/-- First-match lookup in an association list, modelling Python dict lookup
(dict "get" returning None on a missing key). -/
def getVal? {α : Type} {β : Type} [DecidableEq α] : List (α × β) → α → Option β
  | [], _ => none
  | (k, v) :: t, a => if k = a then some v else getVal? t a

/-- List of (course id, semester id) pairs of an event, as flattened by the
comprehension in fitness_function over event.participants. -/
def participantsPairs (ev : Event) : List (Nat × Nat) :=
  ev.participants.flatMap (fun p => p.2.map (fun s => (p.1, s)))

/-- State threaded through one fitness evaluation: the running fitness
counter and the employee_planned_at_date and date_x_students sets. -/
structure FitState where
  fitness : Int
  employeePlannedAtDate : Finset (Nat × Nat)
  dateXStudents : Finset (Nat × Nat × Nat)
deriving DecidableEq

/-- One iteration of the employee loop of fitness_function: add HARD if the
(employee id, date id) pair is already recorded, record it, then add the
dislike priority value if the pair is in the dislike table. -/
def empStep (edd : List ((Nat × Nat) × Priority)) (dateId : Nat)
    (st : Int × Finset (Nat × Nat)) (employeeId : Nat) :
    Int × Finset (Nat × Nat) :=
  let key : Nat × Nat := (employeeId, dateId)
  let f1 : Int := st.1 + (if key ∈ st.2 then HARD_CONSTRAINT else 0)
  let s1 : Finset (Nat × Nat) := insert key st.2
  let f2 : Int := f1 + (match getVal? edd key with
    | some p => p.value
    | none => 0)
  (f2, s1)

/-- One iteration of the student loop of fitness_function: add HARD if the
(date id, course id, semester id) triple is already recorded, then record
it. -/
def stuStep (dateId : Nat) (st : Int × Finset (Nat × Nat × Nat))
    (cs : Nat × Nat) : Int × Finset (Nat × Nat × Nat) :=
  let key : Nat × Nat × Nat := (dateId, cs.1, cs.2)
  let f1 : Int := st.1 + (if key ∈ st.2 then HARD_CONSTRAINT else 0)
  (f1, insert key st.2)

/-- One iteration of the main block loop of fitness_function: resolve the
gene into a slot (Python list indexing, hence Option), then apply the
disallowed-day, employee, room-size, room-type and student checks. -/
def blockStep (dateXRoom : List Slot) (edd : List ((Nat × Nat) × Priority))
    (st : FitState) (b : Event × Nat) : Option FitState := do
  let slot ← dateXRoom[b.2]?
  let dateId : Nat := slot.1.1
  let date : Date := slot.1.2
  let room : Room := slot.2.2
  let event : Event := b.1
  let f0 : Int := st.fitness +
    (if date.day ∈ event.disallowedDays then HARD_CONSTRAINT else 0)
  let es : Int × Finset (Nat × Nat) :=
    event.employeeIds.foldl (empStep edd dateId) (f0, st.employeePlannedAtDate)
  let f2 : Int := es.1 +
    (if room.participantSize.ordinal < event.participantSize.ordinal then
      HARD_CONSTRAINT else 0)
  let f3 : Int := f2 +
    (if room.roomType ≠ event.roomType then HARD_CONSTRAINT else 0)
  let ss : Int × Finset (Nat × Nat × Nat) :=
    (participantsPairs event).foldl (stuStep dateId) (f3, st.dateXStudents)
  pure ⟨ss.1, es.2, ss.2⟩

/-- The fitness function of genetic_algorithm.py: walk the zip of lessons
and solution, threading the fitness counter and both clash sets, and return
the negated accumulated fitness.  Python list indexing is modelled by
Option, so an out-of-range gene yields none. -/
def fitnessRun (lessons : List Event) (dateXRoom : List Slot)
    (edd : List ((Nat × Nat) × Priority)) (solution : List Nat) :
    Option Int := do
  let st ← (lessons.zip solution).foldlM (blockStep dateXRoom edd)
    ⟨0, ∅, ∅⟩
  pure (-st.fitness)

/-- Clash penalty of a stream of occurrences against an already-recorded
set: each occurrence that is already in the set contributes HARD, and every
occurrence is recorded.  This isolates the double-booking pattern of both
the employee and the student loop of fitness_function. -/
def clashPen {α : Type} [DecidableEq α] : Finset α → List α → Int
  | _, [] => 0
  | s, x :: xs =>
    (if x ∈ s then HARD_CONSTRAINT else 0) + clashPen (insert x s) xs

/-- Occurrence list of (employee id, date id) pairs of one block. -/
def empOccsOf (ev : Event) (dateId : Nat) : List (Nat × Nat) :=
  ev.employeeIds.map (fun e => (e, dateId))

/-- Occurrence list of (date id, course id, semester id) triples of one
block. -/
def stuOccsOf (ev : Event) (dateId : Nat) : List (Nat × Nat × Nat) :=
  (participantsPairs ev).map (fun p => (dateId, p.1, p.2))

/-- Dislike weight of one (employee id, date id) pair: the priority value
if the pair is in the dislike table, otherwise zero. -/
def dislikeVal (edd : List ((Nat × Nat) × Priority)) (k : Nat × Nat) : Int :=
  match getVal? edd k with
  | some p => p.value
  | none => 0

/-- Sum of the dislike weights over a list of occurrences. -/
def dislikeSum (edd : List ((Nat × Nat) × Priority))
    (occs : List (Nat × Nat)) : Int :=
  (occs.map (dislikeVal edd)).sum

/-- HARD if the slot's day is among the event's disallowed days. -/
def dayPen (ev : Event) (slot : Slot) : Int :=
  if slot.1.2.day ∈ ev.disallowedDays then HARD_CONSTRAINT else 0

/-- HARD if the room's participant size ordinal is below the event's. -/
def sizePen (ev : Event) (slot : Slot) : Int :=
  if slot.2.2.participantSize.ordinal < ev.participantSize.ordinal then
    HARD_CONSTRAINT else 0

/-- HARD if the room's type differs from the event's required type. -/
def typePen (ev : Event) (slot : Slot) : Int :=
  if slot.2.2.roomType ≠ ev.roomType then HARD_CONSTRAINT else 0

/-- Employee occurrences of a resolved block. -/
def empOcc (b : Event × Slot) : List (Nat × Nat) :=
  empOccsOf b.1 b.2.1.1

/-- Student-group occurrences of a resolved block. -/
def stuOcc (b : Event × Slot) : List (Nat × Nat × Nat) :=
  stuOccsOf b.1 b.2.1.1

/-- Order-insensitive (local) part of the penalty of one resolved block:
the disallowed-day, dislike, room-size and room-type contributions. -/
def localPen (edd : List ((Nat × Nat) × Priority)) (b : Event × Slot) : Int :=
  dayPen b.1 b.2 + dislikeSum edd (empOcc b) + sizePen b.1 b.2 +
    typePen b.1 b.2

/-- One block of the specification's penalty sum, in the order the claim
lists the contributions: disallowed day, employee double-booking against
the pairs recorded earlier, dislike weights, room size, room type, and
student double-booking against the triples recorded earlier; the block's
occurrences are then recorded. -/
def penaltyStep (edd : List ((Nat × Nat) × Priority)) (st : FitState)
    (b : Event × Slot) : FitState :=
  let eo := empOcc b
  let so := stuOcc b
  ⟨st.fitness + dayPen b.1 b.2 + clashPen st.employeePlannedAtDate eo +
      dislikeSum edd eo + sizePen b.1 b.2 + typePen b.1 b.2 +
      clashPen st.dateXStudents so,
    st.employeePlannedAtDate ∪ eo.toFinset,
    st.dateXStudents ∪ so.toFinset⟩

/-- Penalty of a list of resolved blocks as the specification describes it:
the sum over blocks, in index order, of the per-block contributions. -/
def penaltySpec (edd : List ((Nat × Nat) × Priority))
    (rbl : List (Event × Slot)) : Int :=
  (rbl.foldl (penaltyStep edd) ⟨0, ∅, ∅⟩).fitness

/-- Resolution of each block's gene into its slot via Python list indexing
(none when some gene is out of range). -/
def resolve (dateXRoom : List Slot) : List (Event × Nat) →
    Option (List (Event × Slot))
  | [] => some []
  | b :: bs => do
    let s ← dateXRoom[b.2]?
    let r ← resolve dateXRoom bs
    pure ((b.1, s) :: r)

section ClashLemmas

variable {α : Type} [DecidableEq α]

theorem clashPen_nonneg (s : Finset α) (l : List α) : 0 ≤ clashPen s l := by
  induction l generalizing s with
  | nil => simp [clashPen]
  | cons x xs ih =>
    have h := ih (insert x s)
    simp only [clashPen]
    by_cases hx : x ∈ s
    · rw [if_pos hx]
      simp only [HARD_CONSTRAINT]
      omega
    · rw [if_neg hx]
      omega

theorem clashPen_append (s : Finset α) (l₁ l₂ : List α) :
    clashPen s (l₁ ++ l₂) = clashPen s l₁ + clashPen (s ∪ l₁.toFinset) l₂ := by
  induction l₁ generalizing s with
  | nil => simp [clashPen]
  | cons x xs ih =>
    rw [List.cons_append]
    simp only [clashPen]
    rw [ih (insert x s), List.toFinset_cons, Finset.union_insert,
      ← Finset.insert_union]
    ring

theorem clashPen_formula (s : Finset α) (l : List α) :
    clashPen s l =
      HARD_CONSTRAINT * ((l.length : Int) - ((l.toFinset \ s).card : Int)) := by
  induction l generalizing s with
  | nil => simp [clashPen]
  | cons x xs ih =>
    by_cases hx : x ∈ s
    · have hins : insert x s = s := Finset.insert_eq_self.mpr hx
      have hsd : (x :: xs).toFinset \ s = xs.toFinset \ s := by
        rw [List.toFinset_cons, Finset.insert_sdiff_of_mem _ hx]
      rw [clashPen, if_pos hx, ih (insert x s), hins, hsd]
      simp only [List.length_cons]
      push_cast
      ring
    · have hsd : (x :: xs).toFinset \ s = insert x (xs.toFinset \ s) := by
        rw [List.toFinset_cons, Finset.insert_sdiff_of_not_mem _ hx]
      have hins : xs.toFinset \ insert x s = (xs.toFinset \ s).erase x := by
        ext y
        simp only [Finset.mem_sdiff, Finset.mem_insert, Finset.mem_erase]
        tauto
      have hcard : (insert x (xs.toFinset \ s)).card =
          ((xs.toFinset \ s).erase x).card + 1 := by
        have hxe : insert x ((xs.toFinset \ s).erase x) =
            insert x (xs.toFinset \ s) := by
          ext y
          simp only [Finset.mem_insert, Finset.mem_erase]
          constructor
          · rintro (rfl | ⟨_, hy⟩)
            · exact Or.inl rfl
            · exact Or.inr hy
          · rintro (rfl | hy)
            · exact Or.inl rfl
            · by_cases hyx : y = x
              · exact Or.inl hyx
              · exact Or.inr ⟨hyx, hy⟩
        rw [← hxe, Finset.card_insert_of_not_mem (Finset.not_mem_erase _ _)]
      rw [clashPen, if_neg hx, ih (insert x s), hins, hsd, hcard]
      simp only [List.length_cons]
      push_cast
      ring

theorem clashPen_perm (s : Finset α) {l l' : List α} (h : l.Perm l') :
    clashPen s l = clashPen s l' := by
  rw [clashPen_formula, clashPen_formula, h.length_eq,
    List.toFinset_eq_of_perm _ _ h]

theorem clashPen_eq_zero (s : Finset α) (l : List α)
    (h : clashPen s l = 0) : (∀ x ∈ l, x ∉ s) ∧ l.Nodup := by
  induction l generalizing s with
  | nil => simp
  | cons x xs ih =>
    have hrest := clashPen_nonneg (insert x s) xs
    rw [clashPen] at h
    have hx : x ∉ s := by
      by_contra hx
      rw [if_pos hx] at h
      simp only [HARD_CONSTRAINT] at h
      omega
    rw [if_neg hx] at h
    have h0 : clashPen (insert x s) xs = 0 := by omega
    obtain ⟨hnotin, hnd⟩ := ih (insert x s) h0
    refine ⟨?_, ?_⟩
    · intro y hy
      rcases List.mem_cons.mp hy with rfl | hy'
      · exact hx
      · exact fun hys => (hnotin y hy') (Finset.mem_insert_of_mem hys)
    · refine List.nodup_cons.mpr ⟨?_, hnd⟩
      intro hxmem
      exact (hnotin x hxmem) (Finset.mem_insert_self _ _)

end ClashLemmas

theorem empStep_foldl (edd : List ((Nat × Nat) × Priority)) (dateId : Nat)
    (emps : List Nat) (f : Int) (s : Finset (Nat × Nat)) :
    emps.foldl (empStep edd dateId) (f, s) =
      (f + clashPen s (emps.map (fun e => (e, dateId))) +
        dislikeSum edd (emps.map (fun e => (e, dateId))),
       s ∪ (emps.map (fun e => (e, dateId))).toFinset) := by
  induction emps generalizing f s with
  | nil => simp [dislikeSum, clashPen]
  | cons e es ih =>
    rw [List.foldl_cons, empStep, ih]
    simp only [List.map_cons, clashPen, dislikeSum, List.sum_cons,
      List.toFinset_cons, Finset.union_insert, ← Finset.insert_union,
      Prod.mk.injEq, dislikeVal]
    exact ⟨by ring, trivial⟩

theorem stuStep_foldl (dateId : Nat) (pairs : List (Nat × Nat)) (f : Int)
    (s : Finset (Nat × Nat × Nat)) :
    pairs.foldl (stuStep dateId) (f, s) =
      (f + clashPen s (pairs.map (fun p => (dateId, p.1, p.2))),
       s ∪ (pairs.map (fun p => (dateId, p.1, p.2))).toFinset) := by
  induction pairs generalizing f s with
  | nil => simp [clashPen]
  | cons p ps ih =>
    rw [List.foldl_cons, stuStep, ih]
    simp only [List.map_cons, clashPen, List.toFinset_cons,
      Finset.union_insert, ← Finset.insert_union, Prod.mk.injEq]
    exact ⟨by ring, trivial⟩

theorem blockStep_eq_penaltyStep (dateXRoom : List Slot)
    (edd : List ((Nat × Nat) × Priority)) (st : FitState) (b : Event × Nat)
    (slot : Slot) (h : dateXRoom[b.2]? = some slot) :
    blockStep dateXRoom edd st b = some (penaltyStep edd st (b.1, slot)) := by
  rw [blockStep, h]
  simp only [Option.bind_eq_bind, Option.some_bind, empStep_foldl,
    stuStep_foldl, Option.pure_def]
  rw [penaltyStep]
  simp only [empOcc, stuOcc, empOccsOf, stuOccsOf, dayPen, sizePen, typePen,
    Option.some.injEq, FitState.mk.injEq]

theorem foldlM_blockStep_eq (dateXRoom : List Slot)
    (edd : List ((Nat × Nat) × Priority)) (bl : List (Event × Nat))
    (st : FitState) :
    bl.foldlM (blockStep dateXRoom edd) st =
      (resolve dateXRoom bl).map (fun rbl => rbl.foldl (penaltyStep edd) st) := by
  induction bl generalizing st with
  | nil => rfl
  | cons b bs ih =>
    rw [List.foldlM_cons]
    cases hg : dateXRoom[b.2]? with
    | none =>
      have hb : blockStep dateXRoom edd st b = none := by
        rw [blockStep, hg]
        rfl
      rw [hb, resolve, hg]
      rfl
    | some slot =>
      rw [blockStep_eq_penaltyStep dateXRoom edd st b slot hg]
      rw [resolve, hg]
      simp only [Option.bind_eq_bind, Option.some_bind, ih]
      cases resolve dateXRoom bs <;> rfl

/-- Bridge between the Python fitness function and the specification
penalty: the fitness is the negated penalty of the resolved block list. -/
theorem fitnessRun_eq_penaltySpec (lessons : List Event)
    (dateXRoom : List Slot) (edd : List ((Nat × Nat) × Priority))
    (solution : List Nat) :
    fitnessRun lessons dateXRoom edd solution =
      (resolve dateXRoom (lessons.zip solution)).map
        (fun rbl => -(penaltySpec edd rbl)) := by
  rw [fitnessRun, foldlM_blockStep_eq]
  cases resolve dateXRoom (lessons.zip solution) <;> rfl

theorem resolve_isSome (dateXRoom : List Slot) (bl : List (Event × Nat))
    (h : ∀ b ∈ bl, b.2 < dateXRoom.length) :
    resolve dateXRoom bl =
      some (bl.map (fun b => (b.1, dateXRoom.getD b.2 default))) := by
  induction bl with
  | nil => rfl
  | cons b bs ih =>
    have hb : b.2 < dateXRoom.length := h b (List.mem_cons_self b bs)
    have hg : dateXRoom[b.2]? = some (dateXRoom.getD b.2 default) := by
      rw [List.getD_eq_getElem?_getD]
      cases hx : dateXRoom[b.2]? with
      | none =>
        exact absurd (List.getElem?_eq_none_iff.mp hx) (Nat.not_le_of_lt hb)
      | some v => simp [hx]
    rw [resolve, hg, ih (fun x hx => h x (List.mem_cons_of_mem b hx))]
    rfl

theorem resolve_none_of_out_of_range (dateXRoom : List Slot)
    (bl : List (Event × Nat)) (b : Event × Nat) (hb : b ∈ bl)
    (h : dateXRoom.length ≤ b.2) : resolve dateXRoom bl = none := by
  induction bl with
  | nil => cases hb
  | cons c cs ih =>
    rcases List.mem_cons.mp hb with rfl | hmem
    · have hg : dateXRoom[b.2]? = none := List.getElem?_eq_none h
      rw [resolve, hg]
      rfl
    · rw [resolve]
      cases hg : dateXRoom[c.2]? with
      | none => rfl
      | some slot =>
        rw [ih hmem]
        rfl

theorem getVal?_mem {α β : Type} [DecidableEq α] {l : List (α × β)} {k : α}
    {v : β} (h : getVal? l k = some v) : (k, v) ∈ l := by
  induction l with
  | nil => cases h
  | cons p t ih =>
    rw [getVal?] at h
    by_cases hk : p.1 = k
    · rw [if_pos hk] at h
      cases h
      have hp : (k, p.2) = p := by
        cases p
        simp_all
      rw [hp]
      exact List.mem_cons_self _ _
    · rw [if_neg hk] at h
      exact List.mem_cons_of_mem _ (ih h)

theorem dislikeVal_nonneg (edd : List ((Nat × Nat) × Priority))
    (hvalid : ∀ e ∈ edd, ValidPriority e.2) (k : Nat × Nat) :
    0 ≤ dislikeVal edd k := by
  rw [dislikeVal]
  cases hg : getVal? edd k with
  | none => exact le_refl 0
  | some p =>
    have h1 : 1 ≤ p.value := (hvalid (k, p) (getVal?_mem hg)).1
    show 0 ≤ p.value
    omega

theorem dislikeSum_nonneg (edd : List ((Nat × Nat) × Priority))
    (hvalid : ∀ e ∈ edd, ValidPriority e.2) (occs : List (Nat × Nat)) :
    0 ≤ dislikeSum edd occs := by
  rw [dislikeSum]
  refine List.sum_nonneg ?_
  intro x hx
  obtain ⟨k, _, rfl⟩ := List.mem_map.mp hx
  exact dislikeVal_nonneg edd hvalid k

theorem dayPen_nonneg (ev : Event) (slot : Slot) : 0 ≤ dayPen ev slot := by
  rw [dayPen]
  split <;> simp [HARD_CONSTRAINT]

theorem sizePen_nonneg (ev : Event) (slot : Slot) : 0 ≤ sizePen ev slot := by
  rw [sizePen]
  split <;> simp [HARD_CONSTRAINT]

theorem typePen_nonneg (ev : Event) (slot : Slot) : 0 ≤ typePen ev slot := by
  rw [typePen]
  split <;> simp [HARD_CONSTRAINT]

theorem localPen_nonneg (edd : List ((Nat × Nat) × Priority))
    (hvalid : ∀ e ∈ edd, ValidPriority e.2) (b : Event × Slot) :
    0 ≤ localPen edd b := by
  have h1 := dayPen_nonneg b.1 b.2
  have h2 := dislikeSum_nonneg edd hvalid (empOcc b)
  have h3 := sizePen_nonneg b.1 b.2
  have h4 := typePen_nonneg b.1 b.2
  rw [localPen]
  omega

theorem sum_eq_zero_of_nonneg {l : List Int} (hpos : ∀ x ∈ l, 0 ≤ x)
    (hsum : l.sum = 0) : ∀ x ∈ l, x = 0 := by
  induction l with
  | nil => intro x hx; cases hx
  | cons a t ih =>
    rw [List.sum_cons] at hsum
    have ha : 0 ≤ a := hpos a (List.mem_cons_self a t)
    have ht : 0 ≤ t.sum :=
      List.sum_nonneg (fun x hx => hpos x (List.mem_cons_of_mem a hx))
    intro x hx
    rcases List.mem_cons.mp hx with rfl | hx'
    · omega
    · exact ih (fun y hy => hpos y (List.mem_cons_of_mem a hy)) (by omega) x hx'

/-- Decomposition of the specification penalty: the sum of the per-block
local penalties plus one clash penalty for the concatenated employee
occurrences and one for the concatenated student occurrences. -/
theorem penaltySpec_decomp (edd : List ((Nat × Nat) × Priority))
    (rbl : List (Event × Slot)) (st : FitState) :
    (rbl.foldl (penaltyStep edd) st).fitness =
      st.fitness + (rbl.map (localPen edd)).sum +
        clashPen st.employeePlannedAtDate (rbl.flatMap empOcc) +
        clashPen st.dateXStudents (rbl.flatMap stuOcc) := by
  induction rbl generalizing st with
  | nil => simp [clashPen]
  | cons b bs ih =>
    rw [List.foldl_cons, ih, List.flatMap_cons, List.flatMap_cons,
      clashPen_append, clashPen_append]
    simp only [penaltyStep, List.map_cons, List.sum_cons, localPen]
    ring

theorem penaltySpec_nonneg (edd : List ((Nat × Nat) × Priority))
    (hvalid : ∀ e ∈ edd, ValidPriority e.2) (rbl : List (Event × Slot)) :
    0 ≤ penaltySpec edd rbl := by
  rw [penaltySpec, penaltySpec_decomp]
  have h1 : 0 ≤ (rbl.map (localPen edd)).sum := by
    refine List.sum_nonneg ?_
    intro x hx
    obtain ⟨b, _, rfl⟩ := List.mem_map.mp hx
    exact localPen_nonneg edd hvalid b
  have h2 := clashPen_nonneg (∅ : Finset (Nat × Nat)) (rbl.flatMap empOcc)
  have h3 := clashPen_nonneg (∅ : Finset (Nat × Nat × Nat)) (rbl.flatMap stuOcc)
  show 0 ≤ (0 : Int) + (rbl.map (localPen edd)).sum +
    clashPen (∅ : Finset (Nat × Nat)) (rbl.flatMap empOcc) +
    clashPen (∅ : Finset (Nat × Nat × Nat)) (rbl.flatMap stuOcc)
  omega

theorem penaltySpec_eq (edd : List ((Nat × Nat) × Priority))
    (rbl : List (Event × Slot)) :
    penaltySpec edd rbl = (rbl.map (localPen edd)).sum +
      clashPen (∅ : Finset (Nat × Nat)) (rbl.flatMap empOcc) +
      clashPen (∅ : Finset (Nat × Nat × Nat)) (rbl.flatMap stuOcc) := by
  rw [penaltySpec, penaltySpec_decomp]
  show (0 : Int) + (rbl.map (localPen edd)).sum +
      clashPen (∅ : Finset (Nat × Nat)) (rbl.flatMap empOcc) +
      clashPen (∅ : Finset (Nat × Nat × Nat)) (rbl.flatMap stuOcc) = _
  ring

theorem penaltySpec_perm (edd : List ((Nat × Nat) × Priority))
    {r r' : List (Event × Slot)} (h : r.Perm r') :
    penaltySpec edd r = penaltySpec edd r' := by
  rw [penaltySpec, penaltySpec, penaltySpec_decomp, penaltySpec_decomp,
    (h.map (localPen edd)).sum_eq, clashPen_perm _ (h.flatMap_right empOcc),
    clashPen_perm _ (h.flatMap_right stuOcc)]

/-!  Concrete sample data used by the witness theorems. -/

/-- Sample day Monday. -/
def dayMo : Day := ⟨"MO", "Montag"⟩

/-- Sample day Tuesday. -/
def dayDi : Day := ⟨"DI", "Dienstag"⟩

/-- Sample time slot 08:00 to 09:15. -/
def tsA : TimeSlot := ⟨(8, 0), (9, 15)⟩

/-- Sample date: Monday at the sample time slot. -/
def dateMo : Date := ⟨dayMo, tsA⟩

/-- Sample date: Tuesday at the sample time slot. -/
def dateDi : Date := ⟨dayDi, tsA⟩

/-- Sample small participant size. -/
def sizeS : ParticipantSize := ⟨"Klein", 1⟩

/-- Sample large participant size. -/
def sizeL : ParticipantSize := ⟨"Gross", 5⟩

/-- Sample room type. -/
def rtHS : RoomType := ⟨"Hoersaal"⟩

/-- Sample room. -/
def roomA : Room := ⟨"HS1", "Hoersaal 1", sizeL, rtHS⟩

/-- Sample slot on Monday. -/
def slotMoA : Slot := ((0, dateMo), (0, roomA))

/-- Sample slot on Tuesday. -/
def slotDiA : Slot := ((1, dateDi), (0, roomA))

/-- Sample summer term. -/
def termS : Term := ⟨"Sommer"⟩

/-- Sample event held by employee 7 with one participant group. -/
def evA : Event := ⟨"Analysis", [7], [(1, [1, 2])], 1, termS, sizeS, rtHS, []⟩

/-- Sample event without employees or participants. -/
def evB : Event := ⟨"Seminar", [], [], 2, termS, sizeS, rtHS, []⟩

/-- Sample dislike table: employee 7 dislikes date 0 with weight 50. -/
def eddA : List ((Nat × Nat) × Priority) := [((7, 0), ⟨50⟩)]

/-- C1: for structurally admissible inputs the fitness function returns the
negation of the non-negative penalty obtained by summing, over the blocks
in index order, the disallowed-day, employee-double-booking, dislike,
room-size, room-type and student-double-booking contributions, where
double bookings are counted against the pairs and triples recorded earlier
in the same evaluation. -/
theorem fitness_returns_negated_penalty (lessons : List Event)
    (dateXRoom : List Slot) (edd : List ((Nat × Nat) × Priority))
    (solution : List Nat) (hlen : solution.length = lessons.length)
    (hrange : ∀ g ∈ solution, g < dateXRoom.length)
    (hvalid : ∀ e ∈ edd, ValidPriority e.2) :
    ∃ rbl, resolve dateXRoom (lessons.zip solution) = some rbl ∧
      fitnessRun lessons dateXRoom edd solution =
        some (-(penaltySpec edd rbl)) ∧
      0 ≤ penaltySpec edd rbl := by
  have hbl : ∀ b ∈ lessons.zip solution, b.2 < dateXRoom.length := by
    intro b hb
    exact hrange b.2 (List.of_mem_zip hb).2
  refine ⟨_, resolve_isSome dateXRoom _ hbl, ?_, ?_⟩
  · rw [fitnessRun_eq_penaltySpec, resolve_isSome dateXRoom _ hbl]
    rfl
  · exact penaltySpec_nonneg edd hvalid _

/-- Witness for C1 at a concrete one-block instance. -/
theorem fitness_returns_negated_penalty_witness :
    (([0] : List Nat).length = [evA].length ∧
      (∀ g ∈ ([0] : List Nat), g < [slotMoA].length) ∧
      (∀ e ∈ eddA, ValidPriority e.2)) ∧
    (∃ rbl, resolve [slotMoA] ([evA].zip [0]) = some rbl ∧
      fitnessRun [evA] [slotMoA] eddA [0] = some (-(penaltySpec eddA rbl)) ∧
      0 ≤ penaltySpec eddA rbl) :=
  ⟨⟨by decide, by decide, by decide⟩,
    fitness_returns_negated_penalty [evA] [slotMoA] eddA [0] (by decide)
      (by decide) (by decide)⟩

/-- C5: on admissible inputs the fitness function never fails: all list
indexing stays in bounds and the dislike lookup defaults, so a value is
always returned. -/
theorem fitness_total (lessons : List Event) (dateXRoom : List Slot)
    (edd : List ((Nat × Nat) × Priority)) (solution : List Nat)
    (hlen : solution.length = lessons.length)
    (hrange : ∀ g ∈ solution, g < dateXRoom.length) :
    (fitnessRun lessons dateXRoom edd solution).isSome := by
  have hbl : ∀ b ∈ lessons.zip solution, b.2 < dateXRoom.length := by
    intro b hb
    exact hrange b.2 (List.of_mem_zip hb).2
  rw [fitnessRun_eq_penaltySpec, resolve_isSome dateXRoom _ hbl]
  rfl

/-- Witness for C5 at a concrete two-block instance. -/
theorem fitness_total_witness :
    (([1, 0] : List Nat).length = [evA, evB].length ∧
      (∀ g ∈ ([1, 0] : List Nat), g < [slotMoA, slotDiA].length)) ∧
    (fitnessRun [evA, evB] [slotMoA, slotDiA] eddA [1, 0]).isSome :=
  ⟨⟨by decide, by decide⟩,
    fitness_total [evA, evB] [slotMoA, slotDiA] eddA [1, 0] (by decide)
      (by decide)⟩

/-- C2: a structurally valid chromosome with fitness zero violates none of
the six constraints: no block on a disallowed day, no two block-employee
occurrences sharing an (employee id, date id) pair, no assigned pair in the
dislike table, every room at least as large as required, every room of the
required type, and no two participant-group occurrences sharing a
(date id, course id, semester id) triple. -/
theorem zero_fitness_implies_constraints (lessons : List Event)
    (dateXRoom : List Slot) (edd : List ((Nat × Nat) × Priority))
    (solution : List Nat) (hlen : solution.length = lessons.length)
    (hrange : ∀ g ∈ solution, g < dateXRoom.length)
    (hnodup : solution.Nodup) (hvalid : ∀ e ∈ edd, ValidPriority e.2)
    (hzero : fitnessRun lessons dateXRoom edd solution = some 0) :
    ∃ rbl, resolve dateXRoom (lessons.zip solution) = some rbl ∧
      (∀ b ∈ rbl, b.2.1.2.day ∉ b.1.disallowedDays) ∧
      (rbl.flatMap empOcc).Nodup ∧
      (∀ b ∈ rbl, ∀ e ∈ b.1.employeeIds, getVal? edd (e, b.2.1.1) = none) ∧
      (∀ b ∈ rbl, b.1.participantSize.ordinal ≤
        b.2.2.2.participantSize.ordinal) ∧
      (∀ b ∈ rbl, b.2.2.2.roomType = b.1.roomType) ∧
      (rbl.flatMap stuOcc).Nodup := by
  have hbl : ∀ b ∈ lessons.zip solution, b.2 < dateXRoom.length := by
    intro b hb
    exact hrange b.2 (List.of_mem_zip hb).2
  obtain ⟨rbl, hres⟩ : ∃ rbl,
      resolve dateXRoom (lessons.zip solution) = some rbl :=
    ⟨_, resolve_isSome dateXRoom _ hbl⟩
  have hfit := fitnessRun_eq_penaltySpec lessons dateXRoom edd solution
  rw [hres, hzero] at hfit
  have hp : penaltySpec edd rbl = 0 := by
    have hinj : (0 : Int) = -(penaltySpec edd rbl) := by
      simpa using hfit
    omega
  rw [penaltySpec_eq] at hp
  have h1 : 0 ≤ (rbl.map (localPen edd)).sum := by
    refine List.sum_nonneg ?_
    intro x hx
    obtain ⟨b, _, rfl⟩ := List.mem_map.mp hx
    exact localPen_nonneg edd hvalid b
  have h2 := clashPen_nonneg (∅ : Finset (Nat × Nat)) (rbl.flatMap empOcc)
  have h3 := clashPen_nonneg (∅ : Finset (Nat × Nat × Nat)) (rbl.flatMap stuOcc)
  have hsum0 : (rbl.map (localPen edd)).sum = 0 := by omega
  have hc1 : clashPen (∅ : Finset (Nat × Nat)) (rbl.flatMap empOcc) = 0 := by
    omega
  have hc2 : clashPen (∅ : Finset (Nat × Nat × Nat)) (rbl.flatMap stuOcc) = 0 := by
    omega
  have hloc : ∀ b ∈ rbl, localPen edd b = 0 := by
    intro b hb
    refine sum_eq_zero_of_nonneg ?_ hsum0 (localPen edd b)
      (List.mem_map_of_mem _ hb)
    intro x hx
    obtain ⟨c, _, rfl⟩ := List.mem_map.mp hx
    exact localPen_nonneg edd hvalid c
  have hparts : ∀ b ∈ rbl, dayPen b.1 b.2 = 0 ∧ dislikeSum edd (empOcc b) = 0 ∧
      sizePen b.1 b.2 = 0 ∧ typePen b.1 b.2 = 0 := by
    intro b hb
    have hl := hloc b hb
    rw [localPen] at hl
    have p1 := dayPen_nonneg b.1 b.2
    have p2 := dislikeSum_nonneg edd hvalid (empOcc b)
    have p3 := sizePen_nonneg b.1 b.2
    have p4 := typePen_nonneg b.1 b.2
    omega
  refine ⟨rbl, hres, ?_, (clashPen_eq_zero _ _ hc1).2, ?_, ?_, ?_,
    (clashPen_eq_zero _ _ hc2).2⟩
  · intro b hb
    have hd := (hparts b hb).1
    rw [dayPen] at hd
    intro hmem
    rw [if_pos hmem] at hd
    simp [HARD_CONSTRAINT] at hd
  · intro b hb e he
    have hd := (hparts b hb).2.1
    have hmem : (e, b.2.1.1) ∈ empOcc b := by
      rw [empOcc, empOccsOf]
      exact List.mem_map_of_mem _ he
    rw [dislikeSum] at hd
    have hv0 : dislikeVal edd (e, b.2.1.1) = 0 := by
      refine sum_eq_zero_of_nonneg ?_ hd (dislikeVal edd (e, b.2.1.1))
        (List.mem_map_of_mem _ hmem)
      intro x hx
      obtain ⟨k, _, rfl⟩ := List.mem_map.mp hx
      exact dislikeVal_nonneg edd hvalid k
    rw [dislikeVal] at hv0
    cases hg : getVal? edd (e, b.2.1.1) with
    | none => rfl
    | some pr =>
      rw [hg] at hv0
      change pr.value = 0 at hv0
      have hge : 1 ≤ pr.value := (hvalid _ (getVal?_mem hg)).1
      omega
  · intro b hb
    have hs := (hparts b hb).2.2.1
    rw [sizePen] at hs
    by_contra hlt
    rw [if_pos (by omega)] at hs
    simp [HARD_CONSTRAINT] at hs
  · intro b hb
    have ht := (hparts b hb).2.2.2
    rw [typePen] at ht
    by_contra hne
    rw [if_pos hne] at ht
    simp [HARD_CONSTRAINT] at ht

/-- Witness for C2 at a concrete zero-penalty instance. -/
theorem zero_fitness_implies_constraints_witness :
    (([0] : List Nat).length = [evA].length ∧
      (∀ g ∈ ([0] : List Nat), g < [slotMoA].length) ∧
      ([0] : List Nat).Nodup ∧
      (∀ e ∈ ([] : List ((Nat × Nat) × Priority)), ValidPriority e.2) ∧
      fitnessRun [evA] [slotMoA] [] [0] = some 0) ∧
    (∃ rbl, resolve [slotMoA] ([evA].zip [0]) = some rbl ∧
      (∀ b ∈ rbl, b.2.1.2.day ∉ b.1.disallowedDays) ∧
      (rbl.flatMap empOcc).Nodup ∧
      (∀ b ∈ rbl, ∀ e ∈ b.1.employeeIds,
        getVal? ([] : List ((Nat × Nat) × Priority)) (e, b.2.1.1) = none) ∧
      (∀ b ∈ rbl, b.1.participantSize.ordinal ≤
        b.2.2.2.participantSize.ordinal) ∧
      (∀ b ∈ rbl, b.2.2.2.roomType = b.1.roomType) ∧
      (rbl.flatMap stuOcc).Nodup) :=
  ⟨⟨by decide, by decide, by decide, by decide, by decide⟩,
    zero_fitness_implies_constraints [evA] [slotMoA] [] [0] (by decide)
      (by decide) (by decide) (by decide) (by decide)⟩

theorem zip_take_right {α β : Type} (l1 : List α) (l2 : List β) :
    l1.zip l2 = l1.zip (l2.take l1.length) := by
  induction l1 generalizing l2 with
  | nil => simp
  | cons a t ih =>
    cases l2 with
    | nil => simp
    | cons b u => simp [List.zip_cons_cons, ih u]

theorem zip_take_left {α β : Type} (l1 : List α) (l2 : List β) :
    l1.zip l2 = (l1.take l2.length).zip l2 := by
  induction l1 generalizing l2 with
  | nil => simp
  | cons a t ih =>
    cases l2 with
    | nil => simp
    | cons b u => simp [List.zip_cons_cons, ih u]

/-- C3: the fitness value is invariant under simultaneously permuting the
lessons list and the gene vector; the specification penalty splits into
order-insensitive local parts plus one clash penalty per occurrence kind;
and a clash penalty charges HARD exactly once for every occurrence beyond
the first of each value, so each pairwise clash is counted exactly once by
the second occurrence. -/
theorem fitness_order_invariant :
    (∀ (lessons lessons' : List Event) (solution solution' : List Nat)
      (dateXRoom : List Slot) (edd : List ((Nat × Nat) × Priority)),
      (lessons.zip solution).Perm (lessons'.zip solution') →
      fitnessRun lessons dateXRoom edd solution =
        fitnessRun lessons' dateXRoom edd solution') ∧
    (∀ (edd : List ((Nat × Nat) × Priority)) (rbl : List (Event × Slot)),
      penaltySpec edd rbl = (rbl.map (localPen edd)).sum +
        clashPen (∅ : Finset (Nat × Nat)) (rbl.flatMap empOcc) +
        clashPen (∅ : Finset (Nat × Nat × Nat)) (rbl.flatMap stuOcc)) ∧
    (∀ (s : Finset (Nat × Nat)) (l : List (Nat × Nat)),
      clashPen s l = HARD_CONSTRAINT *
        ((l.length : Int) - ((l.toFinset \ s).card : Int))) ∧
    (∀ (s : Finset (Nat × Nat × Nat)) (l : List (Nat × Nat × Nat)),
      clashPen s l = HARD_CONSTRAINT *
        ((l.length : Int) - ((l.toFinset \ s).card : Int))) := by
  refine ⟨?_, penaltySpec_eq, clashPen_formula, clashPen_formula⟩
  intro lessons lessons' solution solution' dateXRoom edd hperm
  by_cases hr : ∀ b ∈ lessons.zip solution, b.2 < dateXRoom.length
  · have hr' : ∀ b ∈ lessons'.zip solution', b.2 < dateXRoom.length := by
      intro b hb
      exact hr b (hperm.mem_iff.mpr hb)
    rw [fitnessRun_eq_penaltySpec, fitnessRun_eq_penaltySpec,
      resolve_isSome _ _ hr, resolve_isSome _ _ hr']
    have hmap := hperm.map (fun b => (b.1, dateXRoom.getD b.2 default))
    simp only [Option.map_some']
    exact congrArg some (congrArg Neg.neg (penaltySpec_perm edd hmap))
  · push_neg at hr
    obtain ⟨b, hb, hble⟩ := hr
    rw [fitnessRun_eq_penaltySpec, fitnessRun_eq_penaltySpec,
      resolve_none_of_out_of_range _ _ b hb hble,
      resolve_none_of_out_of_range _ _ b (hperm.mem_iff.mp hb) hble]

/-- Witness for C3 at a concrete transposition of two blocks. -/
theorem fitness_order_invariant_witness :
    (([evA, evB].zip ([0, 1] : List Nat)).Perm
      ([evB, evA].zip ([1, 0] : List Nat))) ∧
    fitnessRun [evA, evB] [slotMoA, slotDiA] eddA [0, 1] =
      fitnessRun [evB, evA] [slotMoA, slotDiA] eddA [1, 0] :=
  ⟨by decide,
    fitness_order_invariant.1 [evA, evB] [evB, evA] [0, 1] [1, 0]
      [slotMoA, slotDiA] eddA (by decide)⟩

/-- C9: the fitness function inspects only the zipped prefix of lessons and
solution: genes beyond the lessons list are ignored, blocks beyond the gene
vector are ignored, and an empty lessons list always yields fitness zero. -/
theorem fitness_zip_truncation (lessons : List Event) (dateXRoom : List Slot)
    (edd : List ((Nat × Nat) × Priority)) (solution : List Nat) :
    fitnessRun lessons dateXRoom edd solution =
      fitnessRun lessons dateXRoom edd (solution.take lessons.length) ∧
    fitnessRun lessons dateXRoom edd solution =
      fitnessRun (lessons.take solution.length) dateXRoom edd solution ∧
    fitnessRun [] dateXRoom edd solution = some 0 := by
  refine ⟨?_, ?_, ?_⟩
  · rw [fitnessRun, fitnessRun, ← zip_take_right]
  · rw [fitnessRun, fitnessRun, ← zip_take_left]
  · rfl

/-- The lessons list built by prepare (genetic_algorithm.py): the list
comprehension yields each event of the requested term weekly_blocks times,
walking the events dictionary in its enumeration order. -/
def prepareLessons (events : List (Nat × Event)) (term : String) :
    List Event :=
  events.flatMap (fun p =>
    if p.2.term.name = term then List.replicate p.2.weeklyBlocks p.2 else [])

/-- The slot list built by prepare: all pairs of date-dictionary entries
and room-dictionary entries, date-major. -/
def prepareDateXRoom (dates : List (Nat × Date)) (rooms : List (Nat × Room)) :
    List Slot :=
  dates.flatMap (fun d => rooms.map (fun r => (d, r)))

/-- The dislike dictionary built by prepare: each (employee id, date id)
pair is mapped to the priority stored under its priority id; the Python
subscript raises KeyError on a dangling id, hence Option. -/
def prepareEmployeeDislikesDate (eddIds : List ((Nat × Nat) × Nat))
    (prioritiesById : List (Nat × Priority)) :
    Option (List ((Nat × Nat) × Priority)) :=
  eddIds.mapM (fun e => (getVal? prioritiesById e.2).map (fun p => (e.1, p)))

/-- Lessons as the C4 claim words them: exactly the events whose term name
equals the requested term, kept in their stable enumeration order, each
repeated weekly_blocks times consecutively. -/
def lessonsSpec (events : List (Nat × Event)) (term : String) : List Event :=
  (events.filter (fun p => p.2.term.name = term)).flatMap
    (fun p => List.replicate p.2.weeklyBlocks p.2)

theorem prepareLessons_eq_spec (events : List (Nat × Event)) (term : String) :
    prepareLessons events term = lessonsSpec events term := by
  induction events with
  | nil => rfl
  | cons p t ih =>
    rw [prepareLessons, lessonsSpec, List.flatMap_cons, List.filter_cons]
    by_cases hc : p.2.term.name = term
    · rw [if_pos hc, if_pos (by simpa using hc), List.flatMap_cons]
      rw [prepareLessons, lessonsSpec] at ih
      rw [ih]
    · rw [if_neg hc, if_neg (by simpa using hc), List.nil_append]
      rw [prepareLessons, lessonsSpec] at ih
      exact ih

theorem prepareDateXRoom_getElem (dates : List (Nat × Date))
    (rooms : List (Nat × Room)) (i j : Nat) (hi : i < dates.length)
    (hj : j < rooms.length) :
    (prepareDateXRoom dates rooms)[i * rooms.length + j]? =
      some (dates[i], rooms[j]) := by
  induction dates generalizing i with
  | nil => cases hi
  | cons d t ih =>
    rw [prepareDateXRoom, List.flatMap_cons]
    cases i with
    | zero =>
      rw [Nat.zero_mul, Nat.zero_add, List.getElem?_append,
        if_pos (by simpa using hj), List.getElem?_map,
        List.getElem?_eq_getElem hj]
      rfl
    | succ k =>
      have hk : k < t.length := by simpa using hi
      have harith : (k + 1) * rooms.length + j =
          (rooms.map (fun r => (d, r))).length + (k * rooms.length + j) := by
        rw [List.length_map]
        ring
      rw [harith, List.getElem?_append, if_neg (by omega),
        Nat.add_sub_cancel_left]
      rw [prepareDateXRoom] at ih
      rw [ih k hk]
      rfl

theorem prepareDateXRoom_length (dates : List (Nat × Date))
    (rooms : List (Nat × Room)) :
    (prepareDateXRoom dates rooms).length = dates.length * rooms.length := by
  induction dates with
  | nil => simp [prepareDateXRoom]
  | cons d t ih =>
    rw [prepareDateXRoom, List.flatMap_cons, List.length_append,
      List.length_map]
    rw [prepareDateXRoom] at ih
    rw [ih, List.length_cons]
    ring

/-- C4: prepare builds the lessons list as exactly the requested term's
events, each repeated weekly_blocks times consecutively in the stable
enumeration order (zero blocks contribute nothing), and builds date_x_room
as the cartesian product of dates and rooms in date-major order, each pair
carrying the full date and room records. -/
theorem prepare_structures (events : List (Nat × Event)) (term : String)
    (dates : List (Nat × Date)) (rooms : List (Nat × Room)) :
    prepareLessons events term = lessonsSpec events term ∧
    (∀ ev ∈ prepareLessons events term,
      ev.term.name = term ∧ 0 < ev.weeklyBlocks) ∧
    (prepareDateXRoom dates rooms).length = dates.length * rooms.length ∧
    (∀ i j, (hi : i < dates.length) → (hj : j < rooms.length) →
      (prepareDateXRoom dates rooms)[i * rooms.length + j]? =
        some (dates[i], rooms[j])) := by
  refine ⟨prepareLessons_eq_spec events term, ?_,
    prepareDateXRoom_length dates rooms,
    fun i j hi hj => prepareDateXRoom_getElem dates rooms i j hi hj⟩
  intro ev hev
  rw [prepareLessons] at hev
  obtain ⟨p, hp, hrep⟩ := List.mem_flatMap.mp hev
  by_cases hc : p.2.term.name = term
  · rw [if_pos hc] at hrep
    have hn : 0 < p.2.weeklyBlocks := by
      have := (List.mem_replicate.mp hrep).1
      omega
    have heq : ev = p.2 := List.eq_of_mem_replicate hrep
    subst heq
    exact ⟨hc, hn⟩
  · rw [if_neg hc] at hrep
    cases hrep

/-- Witness for C4 at a concrete two-event, two-date, one-room instance. -/
theorem prepare_structures_witness :
    (prepareLessons [(1, evA), (2, evB)] "Sommer" =
      lessonsSpec [(1, evA), (2, evB)] "Sommer" ∧
      prepareLessons [(1, evA), (2, evB)] "Sommer" = [evA, evB, evB]) ∧
    ((1 : Nat) < ([(0, dateMo), (1, dateDi)] : List (Nat × Date)).length ∧
      (0 : Nat) < ([(0, roomA)] : List (Nat × Room)).length ∧
      (prepareDateXRoom [(0, dateMo), (1, dateDi)] [(0, roomA)])[1 * 1 + 0]? =
        some ((1, dateDi), (0, roomA))) :=
  ⟨⟨(prepare_structures [(1, evA), (2, evB)] "Sommer"
      [(0, dateMo), (1, dateDi)] [(0, roomA)]).1, by decide⟩,
    by decide, by decide,
    (prepare_structures [(1, evA), (2, evB)] "Sommer"
      [(0, dateMo), (1, dateDi)] [(0, roomA)]).2.2.2 1 0 (by decide)
      (by decide)⟩

/-!  Dictionary model for parse_pygad_solution_for_print: Python dicts are
association lists in insertion order; assignment updates an existing key in
place and appends a new key at the end. -/

/-- Python dict assignment: update the binding of an existing key in place,
otherwise append the new binding at the end. -/
def setKey {α β : Type} [DecidableEq α] : List (α × β) → α → β → List (α × β)
  | [], k, v => [(k, v)]
  | (k', v') :: t, k, v =>
    if k' = k then (k, v) :: t else (k', v') :: setKey t k v

/-- Sum of a measure of the values of an association list. -/
def sumVal {α β : Type} (μ : β → Nat) (l : List (α × β)) : Nat :=
  (l.map (fun p => μ p.2)).sum

theorem getVal?_eq_none {α β : Type} [DecidableEq α] (l : List (α × β))
    (k : α) : getVal? l k = none ↔ k ∉ l.map Prod.fst := by
  induction l with
  | nil => simp [getVal?]
  | cons p t ih =>
    rw [getVal?]
    by_cases hk : p.1 = k
    · simp [hk]
    · simp only [if_neg hk, List.map_cons, List.mem_cons, ih]
      constructor
      · rintro h (rfl | hm)
        · exact hk rfl
        · exact h hm
      · intro h
        exact fun hm => h (Or.inr hm)

theorem setKey_of_not_mem {α β : Type} [DecidableEq α] (l : List (α × β))
    (k : α) (v : β) (h : k ∉ l.map Prod.fst) : setKey l k v = l ++ [(k, v)] := by
  induction l with
  | nil => rfl
  | cons p t ih =>
    rw [setKey]
    have hk : p.1 ≠ k := by
      intro he
      exact h (by simp [he])
    rw [if_neg hk, ih (fun hm => h (by simp [hm]))]
    rfl

theorem getVal?_setKey_self {α β : Type} [DecidableEq α] (l : List (α × β))
    (k : α) (v : β) : getVal? (setKey l k v) k = some v := by
  induction l with
  | nil => simp [setKey, getVal?]
  | cons p t ih =>
    rw [setKey]
    by_cases hk : p.1 = k
    · rw [if_pos hk, getVal?, if_pos rfl]
    · rw [if_neg hk, getVal?, if_neg hk]
      exact ih

theorem length_setKey_mem {α β : Type} [DecidableEq α] (l : List (α × β))
    (k : α) (v : β) (h : k ∈ l.map Prod.fst) :
    (setKey l k v).length = l.length := by
  induction l with
  | nil => cases h
  | cons p t ih =>
    rw [setKey]
    by_cases hk : p.1 = k
    · rw [if_pos hk]
      rfl
    · rw [if_neg hk]
      have hm : k ∈ t.map Prod.fst := by
        rcases List.mem_cons.mp h with he | hm
        · exact absurd he.symm hk
        · exact hm
      simp [ih hm]

theorem sumVal_append {α β : Type} (μ : β → Nat) (l1 l2 : List (α × β)) :
    sumVal μ (l1 ++ l2) = sumVal μ l1 + sumVal μ l2 := by
  rw [sumVal, sumVal, sumVal, List.map_append, List.sum_append]

theorem sumVal_setKey_some {α β : Type} [DecidableEq α] (μ : β → Nat)
    (l : List (α × β)) (k : α) (v w : β) (h : getVal? l k = some w) :
    sumVal μ (setKey l k v) + μ w = sumVal μ l + μ v := by
  induction l with
  | nil => cases h
  | cons p t ih =>
    rw [getVal?] at h
    rw [setKey]
    by_cases hk : p.1 = k
    · rw [if_pos hk] at h ⊢
      injection h with hw
      subst hw
      simp only [sumVal, List.map_cons, List.sum_cons]
      omega
    · rw [if_neg hk] at h ⊢
      have := ih h
      simp only [sumVal, List.map_cons, List.sum_cons] at this ⊢
      omega

theorem sumVal_setKey_none {α β : Type} [DecidableEq α] (μ : β → Nat)
    (l : List (α × β)) (k : α) (v : β) (h : getVal? l k = none) :
    sumVal μ (setKey l k v) = sumVal μ l + μ v := by
  rw [setKey_of_not_mem l k v ((getVal?_eq_none l k).mp h), sumVal_append]
  simp only [sumVal, List.map_cons, List.map_nil, List.sum_cons, List.sum_nil]
  omega

/-!  Decimal formatting of the counter in the duplicate-name suffix. -/

/-- Little-endian decimal digits with explicit structural fuel; with fuel
at least n this agrees with Nat.digits 10 n. -/
def toDigitsRev : Nat → Nat → List Nat
  | 0, _ => []
  | f + 1, n => if n = 0 then [] else n % 10 :: toDigitsRev f (n / 10)

theorem toDigitsRev_eq_digits (fuel n : Nat) (h : n ≤ fuel) :
    toDigitsRev fuel n = Nat.digits 10 n := by
  induction fuel generalizing n with
  | zero =>
    have : n = 0 := by omega
    subst this
    simp [toDigitsRev]
  | succ f ih =>
    rw [toDigitsRev]
    by_cases hn : n = 0
    · rw [if_pos hn, hn, Nat.digits_zero]
    · rw [if_neg hn, Nat.digits_def' (by norm_num : (1 : Nat) < 10)
        (by omega), ih (n / 10) ?_]
      have := Nat.div_lt_self (by omega : 0 < n) (by norm_num : (1 : Nat) < 10)
      omega

/-- Decimal string of a natural number, as the Python f-string renders the
duplicate counter. -/
def natRepr (n : Nat) : String :=
  if n = 0 then "0" else ⟨(toDigitsRev n n).reverse.map Nat.digitChar⟩

theorem digitChar_inj_lt :
    ∀ (a b : Fin 10),
      Nat.digitChar a.val = Nat.digitChar b.val → a.val = b.val := by
  decide

theorem map_digitChar_inj (l1 l2 : List Nat) (h1 : ∀ d ∈ l1, d < 10)
    (h2 : ∀ d ∈ l2, d < 10)
    (h : l1.map Nat.digitChar = l2.map Nat.digitChar) : l1 = l2 := by
  induction l1 generalizing l2 with
  | nil =>
    cases l2 with
    | nil => rfl
    | cons b u => cases h
  | cons a t ih =>
    cases l2 with
    | nil => cases h
    | cons b u =>
      rw [List.map_cons, List.map_cons] at h
      have hab : a = b := by
        have ha : a < 10 := h1 a (List.mem_cons_self a t)
        have hb : b < 10 := h2 b (List.mem_cons_self b u)
        exact digitChar_inj_lt ⟨a, ha⟩ ⟨b, hb⟩ (List.head_eq_of_cons_eq h)
      subst hab
      rw [ih u (fun d hd => h1 d (List.mem_cons_of_mem a hd))
        (fun d hd => h2 d (List.mem_cons_of_mem a hd))
        (List.tail_eq_of_cons_eq h)]

theorem natRepr_inj_pos (m n : Nat) (hm : 1 ≤ m) (hn : 1 ≤ n)
    (h : natRepr m = natRepr n) : m = n := by
  rw [natRepr, natRepr, if_neg (by omega), if_neg (by omega),
    toDigitsRev_eq_digits m m le_rfl, toDigitsRev_eq_digits n n le_rfl] at h
  have hdata : ((Nat.digits 10 m).reverse.map Nat.digitChar) =
      ((Nat.digits 10 n).reverse.map Nat.digitChar) :=
    congrArg String.data h
  have hrev : (Nat.digits 10 m).reverse = (Nat.digits 10 n).reverse := by
    refine map_digitChar_inj _ _ ?_ ?_ hdata
    · intro d hd
      exact Nat.digits_lt_base (by norm_num) (List.mem_reverse.mp hd)
    · intro d hd
      exact Nat.digits_lt_base (by norm_num) (List.mem_reverse.mp hd)
  have hdig : Nat.digits 10 m = Nat.digits 10 n :=
    List.reverse_injective hrev
  have := congrArg (Nat.ofDigits 10) hdig
  rwa [Nat.ofDigits_digits, Nat.ofDigits_digits, ← Nat.cast_inj (R := Nat)]
    at this

/-- Candidate name tried by the duplicate-name loop: the event name with
the counter in parentheses. -/
def candName (base : String) (k : Nat) : String :=
  base ++ " (" ++ natRepr k ++ ")"

theorem candName_inj_pos (base : String) (j k : Nat) (hj : 1 ≤ j)
    (hk : 1 ≤ k) (h : candName base j = candName base k) : j = k := by
  rw [candName, candName] at h
  have hdata := congrArg String.data h
  simp only [String.data_append, List.append_assoc] at hdata
  have h1 := List.append_cancel_left hdata
  have h2 := List.append_cancel_left h1
  have h3 := List.append_cancel_right h2
  exact natRepr_inj_pos j k hj hk (String.ext h3)

/-- The duplicate-name while loop scans the counter candidates in order
and returns the first one not among the bucket keys.  Among the first
keys.length + 1 candidates one is always free because they are pairwise
distinct, so the scan is bounded by that many probes. -/
def freshNameAux (base : String) (keys : List String) : List Nat → String
  | [] => base
  | k :: ks =>
    if candName base k ∈ keys then freshNameAux base keys ks
    else candName base k

/-- Result of the duplicate-name while loop of
parse_pygad_solution_for_print: the event name itself when it is not yet a
key of the time bucket, otherwise the first free counter candidate. -/
def freshName (base : String) (keys : List String) : String :=
  if base ∈ keys then
    freshNameAux base keys (List.range' 1 (keys.length + 1))
  else base

theorem freshName_cand_exists (base : String) (keys : List String) :
    ∃ k ∈ List.range' 1 (keys.length + 1), candName base k ∉ keys := by
  by_contra hall
  push_neg at hall
  have hnodup : ((List.range' 1 (keys.length + 1)).map (candName base)).Nodup := by
    refine List.Nodup.map_on ?_ (List.nodup_range' 1 (keys.length + 1) 1 Nat.one_pos)
    intro j hj k hk hjk
    exact candName_inj_pos base j k (List.mem_range'_1.mp hj).1
      (List.mem_range'_1.mp hk).1 hjk
  have hsub : ((List.range' 1 (keys.length + 1)).map (candName base)).toFinset ⊆
      keys.toFinset := by
    intro x hx
    rw [List.mem_toFinset] at hx ⊢
    obtain ⟨k, hk, rfl⟩ := List.mem_map.mp hx
    exact hall k hk
  have hcard := Finset.card_le_card hsub
  have h1 : ((List.range' 1 (keys.length + 1)).map (candName base)).toFinset.card =
      keys.length + 1 := by
    rw [List.card_toFinset, hnodup.dedup, List.length_map, List.length_range']
  have h2 : keys.toFinset.card ≤ keys.length := List.toFinset_card_le keys
  omega

theorem freshNameAux_not_mem (base : String) (keys : List String)
    (cands : List Nat) (h : ∃ k ∈ cands, candName base k ∉ keys) :
    freshNameAux base keys cands ∉ keys := by
  induction cands with
  | nil =>
    obtain ⟨k, hk, _⟩ := h
    cases hk
  | cons c cs ih =>
    rw [freshNameAux]
    by_cases hc : candName base c ∈ keys
    · rw [if_pos hc]
      refine ih ?_
      obtain ⟨k, hk, hfree⟩ := h
      rcases List.mem_cons.mp hk with rfl | hk'
      · exact absurd hc hfree
      · exact ⟨k, hk', hfree⟩
    · rw [if_neg hc]
      exact hc

theorem freshNameAux_shape (base : String) (keys : List String)
    (cands : List Nat) :
    freshNameAux base keys cands = base ∨
      ∃ k ∈ cands, freshNameAux base keys cands = candName base k := by
  induction cands with
  | nil => exact Or.inl rfl
  | cons c cs ih =>
    rw [freshNameAux]
    by_cases hc : candName base c ∈ keys
    · rw [if_pos hc]
      rcases ih with h | ⟨k, hk, he⟩
      · exact Or.inl h
      · exact Or.inr ⟨k, List.mem_cons_of_mem c hk, he⟩
    · rw [if_neg hc]
      exact Or.inr ⟨c, List.mem_cons_self c cs, rfl⟩

theorem freshName_not_mem (base : String) (keys : List String) :
    freshName base keys ∉ keys := by
  rw [freshName]
  by_cases hb : base ∈ keys
  · rw [if_pos hb]
    exact freshNameAux_not_mem base keys _ (freshName_cand_exists base keys)
  · rw [if_neg hb]
    exact hb

theorem freshName_shape (base : String) (keys : List String) :
    freshName base keys = base ∨
      ∃ k, 1 ≤ k ∧ freshName base keys = candName base k := by
  rw [freshName]
  by_cases hb : base ∈ keys
  · rw [if_pos hb]
    rcases freshNameAux_shape base keys (List.range' 1 (keys.length + 1)) with
      h | ⟨k, hk, he⟩
    · exact Or.inl h
    · exact Or.inr ⟨k, (List.mem_range'_1.mp hk).1, he⟩
  · rw [if_neg hb]
    exact Or.inl rfl

/-- Two-digit zero-padded decimal, as strftime renders hours and minutes. -/
def pad2 (n : Nat) : String :=
  if n < 10 then "0" ++ natRepr n else natRepr n

/-- The time key built in parse_pygad_solution_for_print: start
hour:minute, a dash, end hour:minute. -/
def timeString (ts : TimeSlot) : String :=
  pad2 ts.startTime.1 ++ ":" ++ pad2 ts.startTime.2 ++ " - " ++
    pad2 ts.endTime.1 ++ ":" ++ pad2 ts.endTime.2

/-- Innermost level of the parsed schedule: course abbreviation to the
semester values of the participants. -/
abbrev Participants := List (String × List Int)

/-- Room name to participants. -/
abbrev RoomMap := List (String × Participants)

/-- Event display name to its room assignment. -/
abbrev EventMap := List (String × RoomMap)

/-- Time key to the events scheduled at that time. -/
abbrev TimeMap := List (String × EventMap)

/-- Day name to its time map: the whole parsed schedule. -/
abbrev Schedule := List (String × TimeMap)

/-- The participants dictionary comprehension at the leaf of
parse_pygad_solution_for_print: course abbreviation to the list of
semester values; a dangling course or semester id raises KeyError, hence
Option. -/
def participantsOf (coursesById : List (Nat × Course))
    (semestersById : List (Nat × Semester)) (ev : Event) :
    Option Participants :=
  ev.participants.foldlM (fun acc p => do
    let c ← getVal? coursesById p.1
    let vs ← p.2.mapM (fun sid =>
      (getVal? semestersById sid).map (fun sem => sem.value))
    pure (setKey acc c.abbreviation vs)) []

/-- The membership guard of parse_pygad_solution_for_print: bind an empty
dictionary to the key when it is not present yet. -/
def ensureKey {β : Type} (l : List (String × List β)) (k : String) :
    List (String × List β) :=
  if (getVal? l k).isSome then l else setKey l k []

/-- The two writes at the event level for one block: a fresh event name is
chosen with the duplicate counter, bound to an empty dictionary and then to
the room with its participants. -/
def bumpBucket (bucket : EventMap) (evName roomName : String)
    (parts : Participants) : EventMap :=
  setKey (setKey bucket (freshName evName (bucket.map Prod.fst)) [])
    (freshName evName (bucket.map Prod.fst)) [(roomName, parts)]

/-- The update of one day's time map for one block. -/
def bumpTime (tmap : TimeMap) (timeKey evName roomName : String)
    (parts : Participants) : TimeMap :=
  setKey (ensureKey tmap timeKey) timeKey
    (bumpBucket ((getVal? (ensureKey tmap timeKey) timeKey).getD [])
      evName roomName parts)

/-- The update of the whole schedule for one block. -/
def insertBlock (acc : Schedule) (dayKey timeKey evName roomName : String)
    (parts : Participants) : Schedule :=
  setKey (ensureKey acc dayKey) dayKey
    (bumpTime ((getVal? (ensureKey acc dayKey) dayKey).getD [])
      timeKey evName roomName parts)

/-- One iteration of the loop of parse_pygad_solution_for_print: look the
gene up in date_x_room, build the participants leaf, and update the nested
dictionary. -/
def parseStep (dateXRoom : List Slot) (coursesById : List (Nat × Course))
    (semestersById : List (Nat × Semester)) (acc : Schedule)
    (b : Event × Nat) : Option Schedule := do
  let slot ← dateXRoom[b.2]?
  let parts ← participantsOf coursesById semestersById b.1
  pure (insertBlock acc slot.1.2.day.name (timeString slot.1.2.timeSlot)
    b.1.name slot.2.2.name parts)

/-- The enumerate loop of parse_pygad_solution_for_print: one iteration per
solution entry, indexing the lessons list in step (an exhausted lessons
list is the IndexError case, hence none). -/
def parseLoop (dateXRoom : List Slot) (coursesById : List (Nat × Course))
    (semestersById : List (Nat × Semester)) :
    Schedule → List Event → List Nat → Option Schedule
  | acc, _, [] => some acc
  | _, [], _ :: _ => none
  | acc, ev :: evs, g :: gs => do
    let next ← parseStep dateXRoom coursesById semestersById acc (ev, g)
    parseLoop dateXRoom coursesById semestersById next evs gs

/-- parse_pygad_solution_for_print of genetic_algorithm.py: builds the
nested day to time to event to room to participants dictionary for a
solution. -/
def parsePygadSolutionForPrint (lessons : List Event) (dateXRoom : List Slot)
    (coursesById : List (Nat × Course))
    (semestersById : List (Nat × Semester)) (pygadSolution : List Nat) :
    Option Schedule :=
  parseLoop dateXRoom coursesById semestersById [] lessons pygadSolution

/-- Number of event leaf entries in one day's time map. -/
def leafCountT (t : TimeMap) : Nat := sumVal List.length t

/-- Total number of event leaf entries of a parsed schedule. -/
def leafCount (r : Schedule) : Nat := sumVal leafCountT r

theorem ensureKey_getVal {β : Type} (l : List (String × List β))
    (k : String) :
    getVal? (ensureKey l k) k = some ((getVal? l k).getD []) := by
  rw [ensureKey]
  cases h : getVal? l k with
  | some w => simp [h]
  | none => simp [h, getVal?_setKey_self]

theorem ensureKey_sumVal {β : Type} (μ : List β → Nat) (hz : μ [] = 0)
    (l : List (String × List β)) (k : String) :
    sumVal μ (ensureKey l k) = sumVal μ l := by
  rw [ensureKey]
  cases h : getVal? l k with
  | some w => simp
  | none =>
    simp only [h, Option.isSome_none, Bool.false_eq_true, if_false]
    rw [sumVal_setKey_none μ l k [] h, hz]
    omega

theorem bumpBucket_length (bucket : EventMap) (evName roomName : String)
    (parts : Participants) :
    (bumpBucket bucket evName roomName parts).length = bucket.length + 1 := by
  rw [bumpBucket]
  have hfree := freshName_not_mem evName (bucket.map Prod.fst)
  have hb1 := setKey_of_not_mem bucket
    (freshName evName (bucket.map Prod.fst)) [] hfree
  rw [length_setKey_mem]
  · rw [hb1, List.length_append]
    rfl
  · rw [hb1, List.map_append]
    exact List.mem_append_right _ (by simp)

theorem bumpTime_leafCountT (tmap : TimeMap) (timeKey evName roomName : String)
    (parts : Participants) :
    leafCountT (bumpTime tmap timeKey evName roomName parts) =
      leafCountT tmap + 1 := by
  have hget := ensureKey_getVal tmap timeKey
  have hsame : (getVal? (ensureKey tmap timeKey) timeKey).getD ([] : EventMap) =
      (getVal? tmap timeKey).getD [] := by simp [hget]
  rw [bumpTime, leafCountT, hsame]
  have hbump := sumVal_setKey_some List.length (ensureKey tmap timeKey)
    timeKey
    (bumpBucket ((getVal? tmap timeKey).getD []) evName roomName parts)
    ((getVal? tmap timeKey).getD []) hget
  have hens : sumVal List.length (ensureKey tmap timeKey) =
      sumVal List.length tmap := ensureKey_sumVal List.length rfl tmap timeKey
  have hblen := bumpBucket_length
    ((getVal? tmap timeKey).getD []) evName roomName parts
  rw [leafCountT]
  omega

theorem insertBlock_leafCount (acc : Schedule)
    (dayKey timeKey evName roomName : String) (parts : Participants) :
    leafCount (insertBlock acc dayKey timeKey evName roomName parts) =
      leafCount acc + 1 := by
  have hget := ensureKey_getVal acc dayKey
  have hsame : (getVal? (ensureKey acc dayKey) dayKey).getD ([] : TimeMap) =
      (getVal? acc dayKey).getD [] := by simp [hget]
  rw [insertBlock, leafCount, hsame]
  have hbump := sumVal_setKey_some leafCountT (ensureKey acc dayKey) dayKey
    (bumpTime ((getVal? acc dayKey).getD []) timeKey evName roomName parts)
    ((getVal? acc dayKey).getD []) hget
  have hens : sumVal leafCountT (ensureKey acc dayKey) =
      sumVal leafCountT acc := ensureKey_sumVal leafCountT rfl acc dayKey
  have htime := bumpTime_leafCountT ((getVal? acc dayKey).getD [])
    timeKey evName roomName parts
  rw [leafCount]
  omega

theorem mapM_option_isSome {α β : Type} (f : α → Option β) (l : List α)
    (h : ∀ x ∈ l, (f x).isSome) : (l.mapM f).isSome := by
  induction l with
  | nil => rfl
  | cons a t ih =>
    rw [List.mapM_cons]
    cases ha : f a with
    | none =>
      have := h a (List.mem_cons_self a t)
      rw [ha] at this
      cases this
    | some b =>
      cases ht : t.mapM f with
      | none =>
        have := ih (fun x hx => h x (List.mem_cons_of_mem a hx))
        rw [ht] at this
        cases this
      | some bs => simp [ha, ht]

theorem participantsOf_isSome (coursesById : List (Nat × Course))
    (semestersById : List (Nat × Semester)) (ev : Event)
    (h : ∀ p ∈ ev.participants, (getVal? coursesById p.1).isSome ∧
      ∀ sid ∈ p.2, (getVal? semestersById sid).isSome) :
    (participantsOf coursesById semestersById ev).isSome := by
  rw [participantsOf]
  suffices hgen : ∀ (l : List (Nat × List Nat)) (acc : Participants),
      (∀ p ∈ l, (getVal? coursesById p.1).isSome ∧
        ∀ sid ∈ p.2, (getVal? semestersById sid).isSome) →
      (l.foldlM (fun (acc : Participants) (p : Nat × List Nat) => do
        let c ← getVal? coursesById p.1
        let vs ← p.2.mapM (fun sid =>
          (getVal? semestersById sid).map (fun (sem : Semester) => sem.value))
        pure (setKey acc c.abbreviation vs)) acc).isSome by
    exact hgen ev.participants [] h
  intro l
  induction l with
  | nil =>
    intro acc _
    rfl
  | cons p t ih =>
    intro acc hl
    rw [List.foldlM_cons]
    obtain ⟨hc, hs⟩ := hl p (List.mem_cons_self p t)
    cases hcv : getVal? coursesById p.1 with
    | none =>
      rw [hcv] at hc
      cases hc
    | some c =>
      have hmap := mapM_option_isSome
        (fun sid => (getVal? semestersById sid).map (fun sem => sem.value))
        p.2 (fun sid hsid => by
          have := hs sid hsid
          cases hv : getVal? semestersById sid with
          | none => rw [hv] at this; cases this
          | some sem => simp [hv])
      cases hmv : p.2.mapM (fun sid =>
          (getVal? semestersById sid).map (fun sem => sem.value)) with
      | none =>
        rw [hmv] at hmap
        cases hmap
      | some vs =>
        simp only [hcv, hmv, Option.bind_eq_bind, Option.some_bind,
          Option.pure_def]
        exact ih (setKey acc c.abbreviation vs)
          (fun q hq => hl q (List.mem_cons_of_mem p hq))

theorem parseStep_some (dateXRoom : List Slot)
    (coursesById : List (Nat × Course))
    (semestersById : List (Nat × Semester)) (acc : Schedule)
    (b : Event × Nat) (hg : b.2 < dateXRoom.length)
    (href : ∀ p ∈ b.1.participants, (getVal? coursesById p.1).isSome ∧
      ∀ sid ∈ p.2, (getVal? semestersById sid).isSome) :
    ∃ r, parseStep dateXRoom coursesById semestersById acc b = some r ∧
      leafCount r = leafCount acc + 1 := by
  rw [parseStep]
  rw [List.getElem?_eq_getElem hg]
  cases hp : participantsOf coursesById semestersById b.1 with
  | none =>
    have := participantsOf_isSome coursesById semestersById b.1 href
    rw [hp] at this
    cases this
  | some parts =>
    simp only [hp, Option.bind_eq_bind, Option.some_bind, Option.pure_def]
    exact ⟨_, rfl, insertBlock_leafCount _ _ _ _ _ _⟩

theorem parseLoop_props (dateXRoom : List Slot)
    (coursesById : List (Nat × Course))
    (semestersById : List (Nat × Semester)) :
    ∀ (sol : List Nat) (lessons : List Event) (acc : Schedule),
    sol.length ≤ lessons.length →
    (∀ g ∈ sol, g < dateXRoom.length) →
    (∀ ev ∈ lessons, ∀ p ∈ ev.participants,
      (getVal? coursesById p.1).isSome ∧
      ∀ sid ∈ p.2, (getVal? semestersById sid).isSome) →
    ∃ r, parseLoop dateXRoom coursesById semestersById acc lessons sol =
      some r ∧ leafCount r = leafCount acc + sol.length := by
  intro sol
  induction sol with
  | nil =>
    intro lessons acc _ _ _
    cases lessons <;> exact ⟨acc, rfl, by simp⟩
  | cons g gs ih =>
    intro lessons acc hlen hrange href
    cases lessons with
    | nil => simp at hlen
    | cons ev evs =>
      obtain ⟨r1, hstep, hcount⟩ := parseStep_some dateXRoom coursesById
        semestersById acc (ev, g)
        (hrange g (List.mem_cons_self g gs))
        (href ev (List.mem_cons_self ev evs))
      obtain ⟨r, hloop, hrc⟩ := ih evs r1 (by simpa using hlen)
        (fun x hx => hrange x (List.mem_cons_of_mem g hx))
        (fun e he => href e (List.mem_cons_of_mem ev he))
      refine ⟨r, ?_, ?_⟩
      · rw [parseLoop, hstep]
        simpa using hloop
      · rw [hrc, hcount, List.length_cons]
        omega

/-- C10: the parser creates exactly one leaf entry per block: duplicate
event names within the same day and time are stored under a fresh
counter-suffixed key, so no assignment is overwritten and the total number
of event leaves equals the number of genes parsed. -/
theorem parse_one_leaf_per_block (lessons : List Event)
    (dateXRoom : List Slot) (coursesById : List (Nat × Course))
    (semestersById : List (Nat × Semester)) (sol : List Nat)
    (hlen : sol.length ≤ lessons.length)
    (hrange : ∀ g ∈ sol, g < dateXRoom.length)
    (href : ∀ ev ∈ lessons, ∀ p ∈ ev.participants,
      (getVal? coursesById p.1).isSome ∧
      ∀ sid ∈ p.2, (getVal? semestersById sid).isSome) :
    (∃ r, parsePygadSolutionForPrint lessons dateXRoom coursesById
        semestersById sol = some r ∧ leafCount r = sol.length) ∧
    (∀ base keys, freshName base keys ∉ keys ∧
      (freshName base keys = base ∨
        ∃ k, 1 ≤ k ∧ freshName base keys = candName base k)) := by
  refine ⟨?_, fun base keys => ⟨freshName_not_mem base keys,
    freshName_shape base keys⟩⟩
  obtain ⟨r, hp, hc⟩ := parseLoop_props dateXRoom coursesById semestersById
    sol lessons [] hlen hrange href
  refine ⟨r, hp, ?_⟩
  rw [hc]
  simp [leafCount, sumVal]

/-- Sample course. -/
def courseA : Course := ⟨"B_INF", "Informatik"⟩

/-- Sample course dictionary. -/
def coursesA : List (Nat × Course) := [(1, courseA)]

/-- Sample semester dictionary. -/
def semestersA : List (Nat × Semester) := [(1, ⟨1⟩), (2, ⟨2⟩)]

/-- Second sample room. -/
def roomB : Room := ⟨"HS2", "Hoersaal 2", sizeL, rtHS⟩

/-- Second sample slot on Monday, in the second room. -/
def slotMoB : Slot := ((0, dateMo), (1, roomB))

/-- Witness for C10: two blocks of the same event at the same day and
time produce two leaves, the second under the counter-suffixed name. -/
theorem parse_one_leaf_per_block_witness :
    (([0, 1] : List Nat).length ≤ [evA, evA].length ∧
      (∀ g ∈ ([0, 1] : List Nat), g < [slotMoA, slotMoB].length) ∧
      (∀ ev ∈ [evA, evA], ∀ p ∈ ev.participants,
        (getVal? coursesA p.1).isSome ∧
        ∀ sid ∈ p.2, (getVal? semestersA sid).isSome)) ∧
    ((∃ r, parsePygadSolutionForPrint [evA, evA] [slotMoA, slotMoB]
        coursesA semestersA [0, 1] = some r ∧
        leafCount r = ([0, 1] : List Nat).length) ∧
      (∀ base keys, freshName base keys ∉ keys ∧
        (freshName base keys = base ∨
          ∃ k, 1 ≤ k ∧ freshName base keys = candName base k))) ∧
    (parsePygadSolutionForPrint [evA, evA] [slotMoA, slotMoB] coursesA
      semestersA [0, 1]).map (fun r => (r.map (fun d =>
        d.2.map (fun t => t.2.map Prod.fst)))) =
      some [[["Analysis", "Analysis (1)"]]] :=
  ⟨⟨by decide, by decide, by decide⟩,
    parse_one_leaf_per_block [evA, evA] [slotMoA, slotMoB] coursesA
      semestersA [0, 1] (by decide) (by decide) (by decide),
    by decide⟩

/-- The configuration passed to the pygad.GA constructor in
genetic_algorithm: one field per keyword argument of the call, with the two
float mutation probabilities as exact rationals. -/
structure GAConfig where
  numGenes : Nat
  geneSpaceLow : Nat
  geneSpaceHigh : Nat
  allowDuplicateGenes : Bool
  numGenerations : Nat
  solPerPop : Nat
  mutationType : String
  mutationProbability : Rat × Rat
  numParentsMating : Nat
  parentSelectionType : String
  kTournament : Nat
  crossoverType : String
  stopCriteria : String
  keepElitism : Nat
  randomSeed : Nat
  suppressWarnings : Bool
deriving DecidableEq

/-- The configuration genetic_algorithm builds for a run with the given
generation budget, number of lessons and number of slots. -/
def gaConfig (generations numLessons numSlots : Nat) : GAConfig where
  numGenes := numLessons
  geneSpaceLow := 0
  geneSpaceHigh := numSlots
  allowDuplicateGenes := false
  numGenerations := generations
  solPerPop := SOL_PER_POP
  mutationType := "adaptive"
  mutationProbability := (1 / 10, 1 / 100)
  numParentsMating := 10
  parentSelectionType := "tournament"
  kTournament := 30
  crossoverType := "scattered"
  stopCriteria := "reach_0"
  keepElitism := 1
  randomSeed := 0
  suppressWarnings := true

/-- How a solver run can begin.  The error alternative named by the
specification (InfeasibleInstance) is included so that claims about it can
be stated; genetic_algorithm has no code path producing it. -/
inductive SolverStart
  | infeasibleInstance : SolverStart
  | search (cfg : GAConfig) : SolverStart
deriving DecidableEq

/-- The pre-search behaviour of genetic_algorithm: it unconditionally
constructs the GA configuration from the prepared data and begins the
search; there is no feasibility check comparing the number of lessons with
the number of slots. -/
def geneticAlgorithmStart (generations : Nat) (lessons : List Event)
    (dateXRoom : List Slot) : SolverStart :=
  SolverStart.search (gaConfig generations lessons.length dateXRoom.length)

/-- The value genetic_algorithm returns after the search: the measured
runtime, the best solution parsed for printing, the best solution's
fitness, and the number of generations completed.  The runtime is carried
through from time.perf_counter unchanged, so its type stays abstract. -/
def geneticAlgorithmReturn {R : Type} (lessons : List Event)
    (dateXRoom : List Slot) (coursesById : List (Nat × Course))
    (semestersById : List (Nat × Semester)) (runtime : R)
    (bestSolution : List Nat × Int) (generationsCompleted : Nat) :
    R × Option Schedule × Int × Nat :=
  (runtime,
    parsePygadSolutionForPrint lessons dateXRoom coursesById semestersById
      bestSolution.1,
    bestSolution.2, generationsCompleted)

/-- C6 counterexample: an instance with two blocks and one slot does not
surface an InfeasibleInstance error; the solver starts the search with the
unchecked configuration. -/
theorem infeasible_check_counterexample :
    ([evA, evA] : List Event).length > ([slotMoA] : List Slot).length ∧
    geneticAlgorithmStart NUM_GENERATIONS [evA, evA] [slotMoA] =
      SolverStart.search (gaConfig NUM_GENERATIONS 2 1) ∧
    geneticAlgorithmStart NUM_GENERATIONS [evA, evA] [slotMoA] ≠
      SolverStart.infeasibleInstance := by
  refine ⟨by decide, rfl, ?_⟩
  intro h
  cases h

/-- C6 amended: genetic_algorithm performs no infeasibility check at all:
for every input, also when there are more blocks than slots, it begins the
search and never produces an InfeasibleInstance error. -/
theorem no_infeasibility_check (generations : Nat) (lessons : List Event)
    (dateXRoom : List Slot) :
    geneticAlgorithmStart generations lessons dateXRoom =
      SolverStart.search
        (gaConfig generations lessons.length dateXRoom.length) ∧
    geneticAlgorithmStart generations lessons dateXRoom ≠
      SolverStart.infeasibleInstance := by
  refine ⟨rfl, ?_⟩
  intro h
  cases h

/-- C7: the search is configured with population 300, the given generation
budget defaulting to 20000, 10 mating parents, tournament selection with
sample 30, scattered crossover, adaptive mutation probabilities 0.10 and
0.01, elitism 1, duplicate genes disallowed, genes from 0 to the number of
slots exclusive, seed 0, early stop on fitness 0; and the run returns the
runtime, the parsed best solution, its fitness, and the generations
completed. -/
theorem genetic_algorithm_configuration :
    (∀ generations numLessons numSlots : Nat,
      (gaConfig generations numLessons numSlots).solPerPop = 300 ∧
      (gaConfig generations numLessons numSlots).numGenerations =
        generations ∧
      (gaConfig generations numLessons numSlots).numParentsMating = 10 ∧
      (gaConfig generations numLessons numSlots).parentSelectionType =
        "tournament" ∧
      (gaConfig generations numLessons numSlots).kTournament = 30 ∧
      (gaConfig generations numLessons numSlots).crossoverType =
        "scattered" ∧
      (gaConfig generations numLessons numSlots).mutationType =
        "adaptive" ∧
      (gaConfig generations numLessons numSlots).mutationProbability =
        (1 / 10, 1 / 100) ∧
      (gaConfig generations numLessons numSlots).keepElitism = 1 ∧
      (gaConfig generations numLessons numSlots).allowDuplicateGenes =
        false ∧
      (gaConfig generations numLessons numSlots).numGenes = numLessons ∧
      (gaConfig generations numLessons numSlots).geneSpaceLow = 0 ∧
      (gaConfig generations numLessons numSlots).geneSpaceHigh = numSlots ∧
      (gaConfig generations numLessons numSlots).randomSeed = 0 ∧
      (gaConfig generations numLessons numSlots).stopCriteria = "reach_0") ∧
    NUM_GENERATIONS = 20000 ∧
    (∀ (R : Type) (lessons : List Event) (dateXRoom : List Slot)
      (coursesById : List (Nat × Course))
      (semestersById : List (Nat × Semester)) (runtime : R)
      (best : List Nat × Int) (gens : Nat),
      geneticAlgorithmReturn lessons dateXRoom coursesById semestersById
        runtime best gens =
        (runtime,
          parsePygadSolutionForPrint lessons dateXRoom coursesById
            semestersById best.1,
          best.2, gens)) :=
  ⟨fun _ _ _ => ⟨rfl, rfl, rfl, rfl, rfl, rfl, rfl, rfl, rfl, rfl, rfl,
    rfl, rfl, rfl, rfl⟩, rfl, fun _ _ _ _ _ _ _ _ => rfl⟩

/-- The values argparse produces for the options registered in
parse_arguments (main.py): the generation count and the four boolean
flags. -/
structure ParsedArgs where
  generations : Int
  summer : Bool
  winter : Bool
  printTabular : Bool
  debugMode : Bool
deriving DecidableEq

/-- Defaults declared in parse_arguments: 20000 generations, summer true,
winter false, tabular printing true, debug mode off. -/
def defaultArgs : ParsedArgs :=
  ⟨20000, true, false, true, false⟩

/-- Value of a decimal digit character, none for any other character. -/
def digitVal? (c : Char) : Option Nat :=
  if '0' ≤ c ∧ c ≤ '9' then some (c.toNat - '0'.toNat) else none

/-- Accumulating decimal reading of a digit string. -/
def digitsToNat? : List Char → Nat → Option Nat
  | [], acc => some acc
  | c :: cs, acc =>
    match digitVal? c with
    | some d => digitsToNat? cs (acc * 10 + d)
    | none => none

/-- Integer conversion as the int type of argparse performs it: an
optional sign followed by at least one decimal digit. -/
def strToInt? (s : String) : Option Int :=
  match s.data with
  | [] => none
  | '-' :: cs =>
    if cs = [] then none else (digitsToNat? cs 0).map (fun n => -(n : Int))
  | '+' :: cs =>
    if cs = [] then none else (digitsToNat? cs 0).map (fun n => (n : Int))
  | cs => (digitsToNat? cs 0).map (fun n => (n : Int))

/-- Processing of the command line by the ArgumentParser configured in
parse_arguments: each store_true flag sets its destination, the
generations option consumes an integer value, help raises SystemExit 0,
and an unknown option or malformed value raises SystemExit 2, the code
argparse uses for usage errors. -/
def parseTokens : List String → ParsedArgs → Except Nat ParsedArgs
  | [], a => Except.ok a
  | t :: rest, a =>
    if t = "-h" ∨ t = "--help" then Except.error 0
    else if t = "-g" ∨ t = "--generations" then
      match rest with
      | [] => Except.error 2
      | v :: rest' =>
        match strToInt? v with
        | some n => parseTokens rest' { a with generations := n }
        | none => Except.error 2
    else if t = "-s" ∨ t = "--summer" then
      parseTokens rest { a with summer := true }
    else if t = "-w" ∨ t = "--winter" then
      parseTokens rest { a with winter := true }
    else if t = "-t" ∨ t = "--print-tabular" then
      parseTokens rest { a with printTabular := true }
    else if t = "-d" ∨ t = "--debug_mode" then
      parseTokens rest { a with debugMode := true }
    else Except.error 2

/-- Observable outcome of parse_arguments: the returned tuple on success,
or the process exit code, with a flag recording whether the help text was
printed to standard error. -/
structure ParseArgumentsOutcome where
  result : Option (Int × String × String × Bool)
  exitCode : Option Nat
  helpToStderr : Bool
deriving DecidableEq

/-- parse_arguments of main.py: on success return the parsed tuple with
the term Winter exactly when the winter flag was set and Sommer otherwise;
when the parser raised SystemExit with a non-zero code, print the help
text to standard error and exit with that code; on SystemExit 0 exit
cleanly without the help text on standard error. -/
def parseArguments (argv : List String) : ParseArgumentsOutcome :=
  match parseTokens argv defaultArgs with
  | Except.ok a =>
    ⟨some (a.generations, if a.winter then "Winter" else "Sommer",
      "Tabular", a.debugMode), none, false⟩
  | Except.error c => ⟨none, some c, c != 0⟩

/-- The exit code of main (main.py): argument errors exit inside
parse_arguments with the parser's code; a run whose arguments parse ends
with exit(0). -/
def mainExitCode (argv : List String) : Nat :=
  match parseTokens argv defaultArgs with
  | Except.ok _ => 0
  | Except.error c => c

instance {ε α : Type} [DecidableEq ε] [DecidableEq α] :
    DecidableEq (Except ε α) := fun x y =>
  match x, y with
  | Except.ok a, Except.ok b =>
    if h : a = b then isTrue (by rw [h])
    else isFalse (fun he => h (by injection he))
  | Except.error a, Except.error b =>
    if h : a = b then isTrue (by rw [h])
    else isFalse (fun he => h (by injection he))
  | Except.ok _, Except.error _ => isFalse (fun he => by injection he)
  | Except.error _, Except.ok _ => isFalse (fun he => by injection he)

theorem parseTokens_cons (t : String) (rest : List String) (a : ParsedArgs) :
    parseTokens (t :: rest) a =
      if t = "-h" ∨ t = "--help" then Except.error 0
      else if t = "-g" ∨ t = "--generations" then
        match rest with
        | [] => Except.error 2
        | v :: rest' =>
          match strToInt? v with
          | some n => parseTokens rest' { a with generations := n }
          | none => Except.error 2
      else if t = "-s" ∨ t = "--summer" then
        parseTokens rest { a with summer := true }
      else if t = "-w" ∨ t = "--winter" then
        parseTokens rest { a with winter := true }
      else if t = "-t" ∨ t = "--print-tabular" then
        parseTokens rest { a with printTabular := true }
      else if t = "-d" ∨ t = "--debug_mode" then
        parseTokens rest { a with debugMode := true }
      else Except.error 2 := by
  rw [parseTokens.eq_def]

theorem parseTokens_winter_aux (n : Nat) : ∀ (argv : List String),
    argv.length ≤ n → ∀ (a0 a : ParsedArgs),
    parseTokens argv a0 = Except.ok a →
      (a.winter = true ↔
        (a0.winter = true ∨ "-w" ∈ argv ∨ "--winter" ∈ argv)) := by
  induction n with
  | zero =>
    intro argv hlen a0 a h
    have hargv : argv = [] := List.length_eq_zero.mp (by omega)
    subst hargv
    have h2 : (Except.ok a0 : Except Nat ParsedArgs) = Except.ok a := h
    injection h2 with h2
    subst h2
    simp
  | succ m ihm =>
    intro argv hlen a0 a h
    cases argv with
    | nil =>
      have h2 : (Except.ok a0 : Except Nat ParsedArgs) = Except.ok a := h
      injection h2 with h2
      subst h2
      simp
    | cons t rest =>
      have hrest : rest.length ≤ m := by
        simp only [List.length_cons] at hlen
        omega
      rw [parseTokens_cons] at h
      by_cases h1 : t = "-h" ∨ t = "--help"
      · rw [if_pos h1] at h
        cases h
      · rw [if_neg h1] at h
        by_cases h2 : t = "-g" ∨ t = "--generations"
        · rw [if_pos h2] at h
          cases rest with
          | nil => exact Except.noConfusion h
          | cons v rest' =>
            have hrest' : rest'.length ≤ m := by
              simp only [List.length_cons] at hrest
              omega
            have h' : (match strToInt? v with
                | some n => parseTokens rest' { a0 with generations := n }
                | none => (Except.error 2 : Except Nat ParsedArgs)) =
                Except.ok a := h
            cases hv : strToInt? v with
            | none =>
              rw [hv] at h'
              exact Except.noConfusion h'
            | some k =>
              rw [hv] at h'
              have hiv := ihm rest' hrest' _ _ h'
              have htn : t ≠ "-w" ∧ t ≠ "--winter" := by
                rcases h2 with rfl | rfl <;> exact ⟨by decide, by decide⟩
              have hvn : v ≠ "-w" ∧ v ≠ "--winter" := by
                constructor <;> rintro rfl
                · rw [show strToInt? "-w" = none from by decide] at hv
                  cases hv
                · rw [show strToInt? "--winter" = none from by decide] at hv
                  cases hv
              rw [hiv]
              simp only [List.mem_cons]
              show ParsedArgs.winter a0 = true ∨ _ ↔ _
              constructor
              · rintro (hw | hm | hm)
                · exact Or.inl hw
                · exact Or.inr (Or.inl (Or.inr (Or.inr hm)))
                · exact Or.inr (Or.inr (Or.inr (Or.inr hm)))
              · rintro (hw | ((rfl | rfl | hm) | (rfl | rfl | hm)))
                · exact Or.inl hw
                · exact absurd rfl htn.1
                · exact absurd rfl hvn.1
                · exact Or.inr (Or.inl hm)
                · exact absurd rfl htn.2
                · exact absurd rfl hvn.2
                · exact Or.inr (Or.inr hm)
        · rw [if_neg h2] at h
          by_cases h3 : t = "-s" ∨ t = "--summer"
          · rw [if_pos h3] at h
            have hiv := ihm rest hrest _ _ h
            have htn : t ≠ "-w" ∧ t ≠ "--winter" := by
              rcases h3 with rfl | rfl <;> exact ⟨by decide, by decide⟩
            rw [hiv]
            simp only [List.mem_cons]
            show ParsedArgs.winter a0 = true ∨ _ ↔ _
            constructor
            · rintro (hw | hm | hm)
              · exact Or.inl hw
              · exact Or.inr (Or.inl (Or.inr hm))
              · exact Or.inr (Or.inr (Or.inr hm))
            · rintro (hw | ((rfl | hm) | (rfl | hm)))
              · exact Or.inl hw
              · exact absurd rfl htn.1
              · exact Or.inr (Or.inl hm)
              · exact absurd rfl htn.2
              · exact Or.inr (Or.inr hm)
          · rw [if_neg h3] at h
            by_cases h4 : t = "-w" ∨ t = "--winter"
            · rw [if_pos h4] at h
              have hiv := ihm rest hrest _ _ h
              have hw : a.winter = true := by
                rw [hiv]
                exact Or.inl rfl
              rw [hw]
              simp only [List.mem_cons, true_iff]
              rcases h4 with rfl | rfl
              · exact Or.inr (Or.inl (Or.inl rfl))
              · exact Or.inr (Or.inr (Or.inl rfl))
            · rw [if_neg h4] at h
              by_cases h5 : t = "-t" ∨ t = "--print-tabular"
              · rw [if_pos h5] at h
                have hiv := ihm rest hrest _ _ h
                have htn : t ≠ "-w" ∧ t ≠ "--winter" := by
                  rcases h5 with rfl | rfl <;> exact ⟨by decide, by decide⟩
                rw [hiv]
                simp only [List.mem_cons]
                show ParsedArgs.winter a0 = true ∨ _ ↔ _
                constructor
                · rintro (hw | hm | hm)
                  · exact Or.inl hw
                  · exact Or.inr (Or.inl (Or.inr hm))
                  · exact Or.inr (Or.inr (Or.inr hm))
                · rintro (hw | ((rfl | hm) | (rfl | hm)))
                  · exact Or.inl hw
                  · exact absurd rfl htn.1
                  · exact Or.inr (Or.inl hm)
                  · exact absurd rfl htn.2
                  · exact Or.inr (Or.inr hm)
              · rw [if_neg h5] at h
                by_cases h6 : t = "-d" ∨ t = "--debug_mode"
                · rw [if_pos h6] at h
                  have hiv := ihm rest hrest _ _ h
                  have htn : t ≠ "-w" ∧ t ≠ "--winter" := by
                    rcases h6 with rfl | rfl <;> exact ⟨by decide, by decide⟩
                  rw [hiv]
                  simp only [List.mem_cons]
                  show ParsedArgs.winter a0 = true ∨ _ ↔ _
                  constructor
                  · rintro (hw | hm | hm)
                    · exact Or.inl hw
                    · exact Or.inr (Or.inl (Or.inr hm))
                    · exact Or.inr (Or.inr (Or.inr hm))
                  · rintro (hw | ((rfl | hm) | (rfl | hm)))
                    · exact Or.inl hw
                    · exact absurd rfl htn.1
                    · exact Or.inr (Or.inl hm)
                    · exact absurd rfl htn.2
                    · exact Or.inr (Or.inr hm)
                · rw [if_neg h6] at h
                  cases h

theorem parseTokens_winter (argv : List String) (a0 a : ParsedArgs)
    (h : parseTokens argv a0 = Except.ok a) :
    a.winter = true ↔
      (a0.winter = true ∨ "-w" ∈ argv ∨ "--winter" ∈ argv) :=
  parseTokens_winter_aux argv.length argv le_rfl a0 a h

/-- C8: the term is Winter exactly when the winter flag appears on the
command line and Sommer otherwise, both season flags may be given with
winter overriding, an unknown option prints the help text to standard
error and exits with the parser's non-zero code, and a successful parse
lets main finish with exit code 0. -/
theorem parse_arguments_cli :
    (∀ (argv : List String) (a : ParsedArgs),
      parseTokens argv defaultArgs = Except.ok a →
      (parseArguments argv).result = some (a.generations,
        if a.winter then "Winter" else "Sommer", "Tabular", a.debugMode) ∧
      (a.winter = true ↔ ("-w" ∈ argv ∨ "--winter" ∈ argv))) ∧
    parseArguments ["-s", "-w"] =
      ⟨some (20000, "Winter", "Tabular", false), none, false⟩ ∧
    (∀ (argv : List String) (c : Nat),
      parseTokens argv defaultArgs = Except.error c → c ≠ 0 →
      (parseArguments argv).helpToStderr = true ∧
      (parseArguments argv).exitCode = some c) ∧
    parseTokens ["--frobnicate"] defaultArgs = Except.error 2 ∧
    (∀ (argv : List String) (a : ParsedArgs),
      parseTokens argv defaultArgs = Except.ok a →
      mainExitCode argv = 0) := by
  refine ⟨?_, by decide, ?_, by decide, ?_⟩
  · intro argv a h
    constructor
    · rw [parseArguments, h]
    · have := parseTokens_winter argv defaultArgs a h
      rw [this]
      show false = true ∨ _ ↔ _
      simp
  · intro argv c h hc
    rw [parseArguments, h]
    constructor
    · show (c != 0) = true
      simpa using hc
    · rfl
  · intro argv a h
    rw [mainExitCode, h]

/-- Witness for C8 at concrete command lines. -/
theorem parse_arguments_cli_witness :
    (parseTokens ["-w"] defaultArgs =
      Except.ok ⟨20000, true, true, true, false⟩) ∧
    ((parseArguments ["-w"]).result =
      some (20000, "Winter", "Tabular", false) ∧
      (true = true ↔
        ("-w" ∈ (["-w"] : List String) ∨
          "--winter" ∈ (["-w"] : List String)))) ∧
    ((2 : Nat) ≠ 0 ∧
      (parseArguments ["--frobnicate"]).helpToStderr = true ∧
      (parseArguments ["--frobnicate"]).exitCode = some 2) ∧
    mainExitCode ["-w"] = 0 :=
  ⟨by decide,
    parse_arguments_cli.1 ["-w"] ⟨20000, true, true, true, false⟩ (by decide),
    ⟨by decide, parse_arguments_cli.2.2.1 ["--frobnicate"] 2 (by decide)
      (by decide)⟩,
    parse_arguments_cli.2.2.2.2 ["-w"] ⟨20000, true, true, true, false⟩
      (by decide)⟩

end Stundenplan
